import Mathlib

/-!
Verification development for the gofig configuration library
(registration-and-resolution engine).

The definitions below are shallow embeddings of the Go source files
`gofig.go`, `gofig_reg.go` and the build-variant binder
(`processRegKeys`).  Dynamically typed Go values (`interface{}`) are
modelled with the inductive `JVal`; Go maps are modelled with
association lists where assignment (`m[k] = v`) is `setEntry` and
lookup is `alookup`.  External collaborators (the viper settings store,
the pflag parser, JSON/YAML codecs) are modelled from the
specification where noted.  Character-level operations are faithful on
ASCII input (Go's full Unicode tables are out of model scope).
-/

set_option maxRecDepth 4000

/-- A dynamically typed value, modelling Go `interface{}` contents as
they occur in the configuration store: strings, ints, bools, float64
scalars (payload opaque), `nil`, slices, and nested string-keyed maps. -/
inductive JVal where
  | null : JVal
  | str (s : String) : JVal
  | int (n : Int) : JVal
  | bool (b : Bool) : JVal
  | double (n : Int) : JVal
  | arr (xs : List JVal) : JVal
  | obj (m : List (String × JVal)) : JVal

instance : Inhabited JVal := ⟨JVal.null⟩

/-- True when the value is a nested mapping (`map[string]interface{}`). -/
def JVal.isObj : JVal → Bool
  | .obj _ => true
  | _ => false

mutual

/-- Structural equality on dynamic values (`reflect.DeepEqual`). -/
def JVal.beq : JVal → JVal → Bool
  | .null, .null => true
  | .str a, .str b => a = b
  | .int a, .int b => a = b
  | .bool a, .bool b => a = b
  | .double a, .double b => a = b
  | .arr xs, .arr ys => JVal.beqList xs ys
  | .obj m, .obj m2 => JVal.beqEntries m m2
  | _, _ => false

def JVal.beqList : List JVal → List JVal → Bool
  | [], [] => true
  | x :: xs, y :: ys => JVal.beq x y && JVal.beqList xs ys
  | _, _ => false

def JVal.beqEntries : List (String × JVal) → List (String × JVal) → Bool
  | [], [] => true
  | (k, v) :: xs, (k2, v2) :: ys => k = k2 && JVal.beq v v2 && JVal.beqEntries xs ys
  | _, _ => false

end

mutual

theorem JVal.beq_iff : ∀ a b : JVal, JVal.beq a b = true ↔ a = b
  | .null, .null => by simp [JVal.beq]
  | .str a, .str b => by simp [JVal.beq]
  | .int a, .int b => by simp [JVal.beq]
  | .bool a, .bool b => by simp [JVal.beq]
  | .double a, .double b => by simp [JVal.beq]
  | .arr xs, .arr ys => by
    have h := JVal.beqList_iff xs ys
    simp [JVal.beq, h]
  | .obj m, .obj m2 => by
    have h := JVal.beqEntries_iff m m2
    simp [JVal.beq, h]
  | .null, .str _ | .null, .int _ | .null, .bool _ | .null, .double _ | .null, .arr _
  | .null, .obj _ => by simp [JVal.beq]
  | .str _, .null | .str _, .int _ | .str _, .bool _ | .str _, .double _ | .str _, .arr _
  | .str _, .obj _ => by simp [JVal.beq]
  | .int _, .null | .int _, .str _ | .int _, .bool _ | .int _, .double _ | .int _, .arr _
  | .int _, .obj _ => by simp [JVal.beq]
  | .bool _, .null | .bool _, .str _ | .bool _, .int _ | .bool _, .double _ | .bool _, .arr _
  | .bool _, .obj _ => by simp [JVal.beq]
  | .double _, .null | .double _, .str _ | .double _, .int _ | .double _, .bool _
  | .double _, .arr _ | .double _, .obj _ => by simp [JVal.beq]
  | .arr _, .null | .arr _, .str _ | .arr _, .int _ | .arr _, .bool _ | .arr _, .double _
  | .arr _, .obj _ => by simp [JVal.beq]
  | .obj _, .null | .obj _, .str _ | .obj _, .int _ | .obj _, .bool _ | .obj _, .double _
  | .obj _, .arr _ => by simp [JVal.beq]

theorem JVal.beqList_iff : ∀ xs ys : List JVal, JVal.beqList xs ys = true ↔ xs = ys
  | [], [] => by simp [JVal.beqList]
  | [], _ :: _ => by simp [JVal.beqList]
  | _ :: _, [] => by simp [JVal.beqList]
  | x :: xs, y :: ys => by
    have h1 := JVal.beq_iff x y
    have h2 := JVal.beqList_iff xs ys
    simp [JVal.beqList, h1, h2]

theorem JVal.beqEntries_iff :
    ∀ m m2 : List (String × JVal), JVal.beqEntries m m2 = true ↔ m = m2
  | [], [] => by simp [JVal.beqEntries]
  | [], _ :: _ => by simp [JVal.beqEntries]
  | _ :: _, [] => by simp [JVal.beqEntries]
  | (k, v) :: xs, (k2, v2) :: ys => by
    have h1 := JVal.beq_iff v v2
    have h2 := JVal.beqEntries_iff xs ys
    simp [JVal.beqEntries, h1, h2, and_assoc]

end

instance : DecidableEq JVal := fun a b => decidable_of_iff _ (JVal.beq_iff a b)

/-- Association-list lookup, modelling Go map read `v, ok := m[k]`. -/
def alookup {α : Type} : List (String × α) → String → Option α
  | [], _ => none
  | (k', v) :: rest, k => if k = k' then some v else alookup rest k

/-- Association-list assignment, modelling Go map write `m[k] = v`:
replaces an existing binding, otherwise appends. -/
def setEntry {α : Type} : List (String × α) → String → α → List (String × α)
  | [], k, v => [(k, v)]
  | (k', v') :: rest, k, v =>
    if k = k' then (k, v) :: rest else (k', v') :: setEntry rest k v

/-- Dotted-path extension used throughout the source:
`if prefix == "" { kk = k } else { kk = prefix + "." + k }`. -/
def joinPre (pre k : String) : String :=
  if pre = "" then k else pre ++ "." ++ k

/-- Character-level worker for `strings.Split(s, ".")`. -/
def splitDotAux : List Char → List Char → List String
  | [], acc => [String.mk acc.reverse]
  | c :: cs, acc =>
    if c = '.' then String.mk acc.reverse :: splitDotAux cs [] else splitDotAux cs (c :: acc)

/-- Go `strings.Split(s, ".")` (a single-character separator). -/
def splitOnDot (s : String) : List String :=
  splitDotAux s.data []

/-- Go `strings.ToUpper` on the ASCII fragment. -/
def upperStr (s : String) : String :=
  String.mk (s.data.map Char.toUpper)

/-- Go `strings.ToLower` on the ASCII fragment. -/
def lowerStr (s : String) : String :=
  String.mk (s.data.map Char.toLower)

/-- Go `strings.Join(parts, sep)`. -/
def joinWith (sep : String) : List String → String
  | [] => ""
  | [x] => x
  | x :: xs => x ++ sep ++ joinWith sep xs

/-- Go `strings.Replace(s, ".", "_", -1)`. -/
def dotToUnderscore (s : String) : String :=
  String.mk (s.data.map fun c => if c = '.' then '_' else c)

theorem alookup_setEntry_self {α : Type} (l : List (String × α)) (k : String) (v : α) :
    alookup (setEntry l k v) k = some v := by
  induction l with
  | nil => simp [setEntry, alookup]
  | cons e rest ih =>
    obtain ⟨k', v'⟩ := e
    by_cases h : k = k' <;> simp [setEntry, alookup, h, ih]

theorem alookup_setEntry_ne {α : Type} (l : List (String × α)) {k k2 : String} (v : α)
    (h : k2 ≠ k) : alookup (setEntry l k v) k2 = alookup l k2 := by
  induction l with
  | nil => simp [setEntry, alookup, h]
  | cons e rest ih =>
    obtain ⟨k', v'⟩ := e
    by_cases hk : k = k'
    · subst hk; simp [setEntry, alookup, h]
    · by_cases hk2 : k2 = k' <;> simp [setEntry, alookup, hk, hk2, ih]

/-! ## Key registry (`gofig_reg.go`) -/

/-- The key type constants `String`, `Int`, `Bool`, `SecureString`
declared in `gofig_reg.go`. -/
inductive KeyType where
  | string : KeyType
  | int : KeyType
  | bool : KeyType
  | secureString : KeyType
deriving DecidableEq

/-- `configRegKey` from `gofig_reg.go`. -/
structure ConfigRegKey where
  keyType : KeyType
  defVal : JVal
  short : String
  desc : String
  keyName : String
  flagName : String
  envVarName : String
deriving DecidableEq

/-- `configReg` from `gofig_reg.go`.  The default document is kept in
pre-parsed form (`yamlDoc`, flat dotted keys): the YAML decoder is an
external collaborator per the specification, and `yaml != ""` is
modelled by `yamlDoc` being nonempty. -/
structure ConfigReg where
  name : String
  yamlDoc : List (String × JVal)
  keys : List ConfigRegKey
deriving DecidableEq

/-- Go `unicode.ToLower` applied to the first rune only
(the `for y, r := range s` loop in `Key`, lowering at `y == 0`),
faithful on ASCII. -/
def goLowerFirst (s : String) : String :=
  match s.data with
  | [] => ""
  | c :: cs => String.mk (c.toLower :: cs)

/-- Go `strings.isSeparator`, restricted to the ASCII fragment the
model covers: ASCII alphanumerics and `_` are not separators, every
other ASCII character is; non-ASCII characters are treated as
letters (non-separators). -/
def goIsSeparator (c : Char) : Bool :=
  if c.toNat ≤ 0x7F then
    if ('0' ≤ c ∧ c ≤ '9') ∨ ('a' ≤ c ∧ c ≤ 'z') ∨ ('A' ≤ c ∧ c ≤ 'Z') ∨ c = '_' then
      false
    else
      true
  else
    false

/-- Character stream of Go `strings.Title`: a character standing after
a separator (the stream starts in separator state) is title-cased. -/
def goTitleAux (prev : Char) : List Char → List Char
  | [] => []
  | c :: cs => (if goIsSeparator prev then c.toUpper else c) :: goTitleAux c cs

/-- Go `strings.Title` (ASCII fragment): title-cases every character
that follows a separator, starting in separator state. -/
def goTitle (s : String) : String :=
  String.mk (goTitleAux ' ' s.data)

/-- Flag-name derivation from `Key` (`gofig_reg.go` lines 138-156):
split the key-name on `.`; the loop over segments camel-lowers the
segment at index 0 and applies `strings.Title` to every later
segment; the segments are then joined with no separator. -/
def deriveFlagName (keyName : String) : String :=
  match splitOnDot keyName with
  | [] => ""
  | first :: rest => String.join (goLowerFirst first :: rest.map goTitle)

/-- Env-var-name derivation from `Key` (`gofig_reg.go` lines 161-166):
split the key-name on `.`, upper-case every segment, join with `_`. -/
def deriveEnvVarName (keyName : String) : String :=
  joinWith "_" ((splitOnDot keyName).map upperStr)

/-- The flag-name rule exactly as the claim words it (for comparison
with the source-derived `deriveFlagName`): first segment camel-lowered,
every subsequent segment gets only its first rune upper-cased, the
rest of the segment unchanged; segments concatenated. -/
def specUpperFirst (s : String) : String :=
  match s.data with
  | [] => ""
  | c :: cs => String.mk (c.toUpper :: cs)

/-- The claim's complete flag-name derivation rule (spec wording). -/
def specFlagName (keyName : String) : String :=
  match splitOnDot keyName with
  | [] => ""
  | first :: rest => String.join (goLowerFirst first :: rest.map specUpperFirst)

/-- `secureKey` (`gofig_reg.go` lines 182-190): inserts the
lower-cased key-name into the process-wide secure key index
(`secureKeys[kn] = k`; only key membership is observable). -/
def secureKeyInsert (sec : List String) (keyName : String) : List String :=
  if lowerStr keyName ∈ sec then sec else sec ++ [lowerStr keyName]

/-- `configReg.Key` (`gofig_reg.go` lines 114-172).  `none` models the
`panic` on an empty vararg list.  Name parts are taken as strings
(`toString` on a Go string argument is the identity).  The secure key
index is threaded explicitly in place of the package-global map. -/
def ConfigReg.Key (r : ConfigReg) (keyType : KeyType) (short : String)
    (defVal : JVal) (description : String) (keys : List String)
    (sec : List String) : Option (ConfigReg × List String) :=
  match keys with
  | [] => none
  | keyName :: restNames =>
    let sec' := if keyType = KeyType.secureString then secureKeyInsert sec keyName else sec
    let flagName :=
      match restNames with
      | [] => deriveFlagName keyName
      | fn :: _ => fn
    let envVarName :=
      match restNames with
      | [] => deriveEnvVarName keyName
      | [_] => deriveEnvVarName keyName
      | _ :: evn :: _ => evn
    let rk : ConfigRegKey :=
      { keyType := keyType, defVal := defVal, short := short, desc := description,
        keyName := keyName, flagName := flagName, envVarName := envVarName }
    some ({ r with keys := r.keys ++ [rk] }, sec')

theorem goTitleAux_id (l : List Char) (hl : ∀ c ∈ l, goIsSeparator c = false) :
    ∀ prev, goIsSeparator prev = false → goTitleAux prev l = l := by
  induction l with
  | nil => intro prev _; simp [goTitleAux]
  | cons c cs ih =>
    intro prev hprev
    have hc : goIsSeparator c = false := hl c (by simp)
    have hcs : ∀ x ∈ cs, goIsSeparator x = false := fun x hx => hl x (by simp [hx])
    simp [goTitleAux, hprev, ih hcs c hc]

theorem goTitle_eq_specUpperFirst (s : String)
    (hs : ∀ c ∈ s.data, goIsSeparator c = false) : goTitle s = specUpperFirst s := by
  rcases s with ⟨l⟩
  cases l with
  | nil => rfl
  | cons c cs =>
    have hc : goIsSeparator c = false := hs c (by simp)
    have hcs : ∀ x ∈ cs, goIsSeparator x = false := fun x hx => hs x (by simp [hx])
    show String.mk (goTitleAux ' ' (c :: cs)) = _
    have hsp : goIsSeparator ' ' = true := by decide
    simp [goTitleAux, hsp, specUpperFirst, goTitleAux_id cs hcs c hc]

/-- Claim C4 is false on the code in two ways: the code's worked
example `a.bC.de` derives `aBCDe`, not the claimed `abCDe`; and for a
subsequent segment with an internal separator (`a.b-c`) the code's
`strings.Title` upper-cases every letter following a separator
(`aB-C`), not only the segment's first rune (`aB-c`). -/
theorem flagNameDerivation_C4_cex :
    (ConfigReg.Key ⟨"Mock", [], []⟩ KeyType.string "" (JVal.str "") "" ["a.bC.de"] []).map
        (fun p => p.1.keys.map ConfigRegKey.flagName) = some ["aBCDe"] ∧
    "aBCDe" ≠ "abCDe" ∧
    (ConfigReg.Key ⟨"Mock", [], []⟩ KeyType.string "" (JVal.str "") "" ["a.b-c"] []).map
        (fun p => p.1.keys.map ConfigRegKey.flagName) = some ["aB-C"] ∧
    specFlagName "a.b-c" = "aB-c" ∧ "aB-C" ≠ "aB-c" := by
  refine ⟨by decide, by decide, by decide, by decide, by decide⟩

/-- Claim C4 (amended): for a key declared with only a key-name, the
derived flag-name camel-lowers the first segment and applies word-wise
title-casing (Go `strings.Title`) to every subsequent segment; on
segments containing no separator characters this coincides with the
claimed first-rune-only rule; the key-name `a.bC.de` derives `aBCDe`. -/
theorem flagNameDerivation_C4 (r : ConfigReg) (kt : KeyType) (sh : String)
    (dv : JVal) (d : String) (kn : String) (sec : List String) :
    (∃ r' sec', ConfigReg.Key r kt sh dv d [kn] sec = some (r', sec') ∧
      r'.keys.map ConfigRegKey.flagName =
        r.keys.map ConfigRegKey.flagName ++ [deriveFlagName kn]) ∧
    ((∀ s ∈ (splitOnDot kn).tail, ∀ c ∈ s.data, goIsSeparator c = false) →
      deriveFlagName kn = specFlagName kn) ∧
    deriveFlagName "a.bC.de" = "aBCDe" := by
  refine ⟨⟨_, _, rfl, by simp [ConfigReg.Key]⟩, ?_, by decide⟩
  intro h
  unfold deriveFlagName specFlagName
  cases hsplit : splitOnDot kn with
  | nil => rfl
  | cons first rest =>
    have htail : ∀ s ∈ rest, ∀ c ∈ s.data, goIsSeparator c = false := by
      intro s hs
      exact h s (by simp [hsplit, hs])
    have : rest.map goTitle = rest.map specUpperFirst :=
      List.map_congr_left fun s hs => goTitle_eq_specUpperFirst s (htail s hs)
    simp [this]

theorem flagNameDerivation_C4_witness :
    (∀ s ∈ (splitOnDot "a.bC.de").tail, ∀ c ∈ s.data, goIsSeparator c = false) ∧
    deriveFlagName "a.bC.de" = specFlagName "a.bC.de" :=
  ⟨by decide, (flagNameDerivation_C4 ⟨"Mock", [], []⟩ KeyType.string "" (JVal.str "")
      "" "a.bC.de" []).2.1 (by decide)⟩

/-- Claim C5: for a key declared with only a key-name, the derived
environment-variable name is the key-name split on `.`, each segment
upper-cased, joined with `_`; `mockProvider.docker.minVolSize` derives
`MOCKPROVIDER_DOCKER_MINVOLSIZE`. -/
theorem envVarDerivation_C5 (r : ConfigReg) (kt : KeyType) (sh : String)
    (dv : JVal) (d : String) (kn : String) (sec : List String) :
    (∃ r' sec', ConfigReg.Key r kt sh dv d [kn] sec = some (r', sec') ∧
      r'.keys.map ConfigRegKey.envVarName =
        r.keys.map ConfigRegKey.envVarName ++ [joinWith "_" ((splitOnDot kn).map upperStr)]) ∧
    deriveEnvVarName "mockProvider.docker.minVolSize" =
      "MOCKPROVIDER_DOCKER_MINVOLSIZE" := by
  exact ⟨⟨_, _, rfl, by simp [ConfigReg.Key, deriveEnvVarName]⟩, by decide⟩

/-- Claim C8's invariant is false on the code: `Key` only panics when
zero name parts are supplied; an explicit empty-string key-name is
accepted silently, so after this declaration sequence a declared key
has an empty key-name. -/
theorem emptyKeyName_C8_cex :
    (ConfigReg.Key ⟨"Mock", [], []⟩ KeyType.string "" (JVal.str "") "" [""] []).map
      (fun p => p.1.keys.map ConfigRegKey.keyName) = some [""] := by decide

/-- Claim C8 (amended): supplying zero name parts to `Key` is a fatal
declaration error (modelled by `none`); with at least one name part the
declaration always succeeds and appends a key whose key-name is exactly
the supplied first name part — including the empty string, which is
accepted silently. -/
theorem emptyKeyName_C8 (r : ConfigReg) (kt : KeyType) (sh : String)
    (dv : JVal) (d : String) (sec : List String) :
    ConfigReg.Key r kt sh dv d [] sec = none ∧
    ∀ kn rest, ∃ r' sec', ConfigReg.Key r kt sh dv d (kn :: rest) sec = some (r', sec') ∧
      r'.keys.map ConfigRegKey.keyName = r.keys.map ConfigRegKey.keyName ++ [kn] := by
  refine ⟨rfl, fun kn rest => ⟨_, _, rfl, by simp [ConfigReg.Key]⟩⟩

/-! ## Secure export (`gofig.go` lines 438-493) -/

mutual

/-- `deleteSecureValues` (`gofig.go` lines 479-493) acting on a single
value: descends into nested mappings carrying the node's full dotted
path. -/
def delSecVal (sec : List String) (pre : String) : JVal → JVal
  | .obj m => .obj (delSecEntries sec pre m)
  | v => v

/-- `deleteSecureValues` acting on the entries of a mapping: an entry
whose full dotted path lower-cases into the secure key index is
deleted together with its whole sub-tree (`delete(m, k)`); a kept
entry's value is walked recursively under the extended path. -/
def delSecEntries (sec : List String) (pre : String) :
    List (String × JVal) → List (String × JVal)
  | [] => []
  | (k, v) :: rest =>
    let kk := joinPre pre k
    if lowerStr kk ∈ sec then delSecEntries sec pre rest
    else (k, delSecVal sec kk v) :: delSecEntries sec pre rest

end

mutual

/-- Whether a value's tree, rooted at dotted path `pre`, contains a
node whose lower-cased full dotted path equals `t`. -/
def hasNodeVal (t : String) (pre : String) : JVal → Bool
  | .obj m => hasNodeEntries t pre m
  | _ => false

/-- Whether a mapping under path `pre` contains a node (entry, at any
depth) whose lower-cased full dotted path equals `t`. -/
def hasNodeEntries (t : String) (pre : String) : List (String × JVal) → Bool
  | [] => false
  | (k, v) :: rest =>
    let kk := joinPre pre k
    decide (lowerStr kk = t) || hasNodeVal t kk v || hasNodeEntries t pre rest

end

/-- `allSecureSettings` (`gofig.go` lines 464-477): the settings
document with every secure sub-tree removed.  The JSON
marshal/unmarshal normalisation round-trip is modelled as the
identity; the input `m` stands for the `allSettings()` document. -/
def allSecureSettings (sec : List String) (m : List (String × JVal)) :
    List (String × JVal) :=
  delSecEntries sec "" m

/-- `marshalJSON(secure=true)` (`gofig.go` lines 438-449): the document
handed to `json.Marshal` (serialization itself is external). -/
def marshalJSONdoc (sec : List String) (m : List (String × JVal)) :
    List (String × JVal) :=
  allSecureSettings sec m

/-- `ToJSON` (`gofig.go` lines 216-222): indented serialization of the
secure document (whitespace not modelled). -/
def toJSONdoc (sec : List String) (m : List (String × JVal)) :
    List (String × JVal) :=
  marshalJSONdoc sec m

/-- `ToJSONCompact` (`gofig.go` lines 227-233): compact serialization
of the secure document. -/
def toJSONCompactDoc (sec : List String) (m : List (String × JVal)) :
    List (String × JVal) :=
  marshalJSONdoc sec m

theorem stringDataAppend (a b : String) : (a ++ b).data = a.data ++ b.data := by
  cases a; cases b; rfl

theorem joinPre_right_inj {pre k k2 : String} (h : joinPre pre k = joinPre pre k2) :
    k = k2 := by
  by_cases hp : pre = ""
  · simpa [joinPre, hp] using h
  · have hd := congrArg String.data h
    simp only [joinPre, hp, if_neg, stringDataAppend] at hd
    rcases k with ⟨kl⟩; rcases k2 with ⟨k2l⟩
    have := List.append_cancel_left hd
    simpa using congrArg String.mk this

theorem delSecVal_not_obj (sec : List String) (pre : String) {v : JVal}
    (h : v.isObj = false) : delSecVal sec pre v = v := by
  cases v
  case obj m => simp [JVal.isObj] at h
  all_goals simp [delSecVal]

theorem alookup_delSecEntries_kept (sec : List String) (pre k : String)
    (hk : lowerStr (joinPre pre k) ∉ sec) (m : List (String × JVal)) :
    alookup (delSecEntries sec pre m) k =
      (alookup m k).map (delSecVal sec (joinPre pre k)) := by
  induction m with
  | nil => simp [delSecEntries, alookup]
  | cons e rest ih =>
    obtain ⟨k2, v⟩ := e
    by_cases hsec : lowerStr (joinPre pre k2) ∈ sec
    · have hne : k ≠ k2 := by
        intro hkk; rw [hkk] at hk; exact hk hsec
      simp [delSecEntries, hsec, alookup, hne, ih]
    · by_cases hkk : k = k2
      · subst hkk; simp [delSecEntries, hsec, alookup]
      · simp [delSecEntries, hsec, alookup, hkk, ih]

theorem alookup_delSecEntries_secure (sec : List String) (pre k : String)
    (hk : lowerStr (joinPre pre k) ∈ sec) (m : List (String × JVal)) :
    alookup (delSecEntries sec pre m) k = none := by
  induction m with
  | nil => simp [delSecEntries, alookup]
  | cons e rest ih =>
    obtain ⟨k2, v⟩ := e
    by_cases hsec : lowerStr (joinPre pre k2) ∈ sec
    · simp [delSecEntries, hsec, ih]
    · have hne : k ≠ k2 := by
        intro hkk; rw [hkk] at hk; exact hsec hk
      simp [delSecEntries, hsec, alookup, hne, ih]

mutual

theorem hasNodeVal_delSecVal (sec : List String) (t : String) (ht : t ∈ sec) :
    ∀ (pre : String) (v : JVal), hasNodeVal t pre (delSecVal sec pre v) = false
  | pre, .obj m => by
    have h := hasNodeEntries_delSecEntries sec t ht pre m
    simp [delSecVal, hasNodeVal, h]
  | _, .null => by simp [delSecVal, hasNodeVal]
  | _, .str _ => by simp [delSecVal, hasNodeVal]
  | _, .int _ => by simp [delSecVal, hasNodeVal]
  | _, .bool _ => by simp [delSecVal, hasNodeVal]
  | _, .double _ => by simp [delSecVal, hasNodeVal]
  | _, .arr _ => by simp [delSecVal, hasNodeVal]

theorem hasNodeEntries_delSecEntries (sec : List String) (t : String) (ht : t ∈ sec) :
    ∀ (pre : String) (m : List (String × JVal)),
      hasNodeEntries t pre (delSecEntries sec pre m) = false
  | pre, [] => by simp [delSecEntries, hasNodeEntries]
  | pre, (k, v) :: rest => by
    have hrest := hasNodeEntries_delSecEntries sec t ht pre rest
    by_cases hsec : lowerStr (joinPre pre k) ∈ sec
    · simp [delSecEntries, hsec, hrest]
    · have hv := hasNodeVal_delSecVal sec t ht (joinPre pre k) v
      have hne : lowerStr (joinPre pre k) ≠ t := fun hEq => hsec (hEq ▸ ht)
      simp [delSecEntries, hsec, hasNodeEntries, hne, hv, hrest]

end

/-- Claim C3: for every secure key (inserted lower-cased into the
secure key index by a `SecureString` declaration), the documents
produced by `ToJSON`, `ToJSONCompact` and `MarshalJSON` contain no
node whose full dotted path equals that key at any depth — the key's
entry is deleted together with its entire sub-tree — while any
sibling or parent entry whose own path is not secure is preserved
(its value redacted only below); and declaring a `SecureString` key
inserts its lower-cased key-name into the index. -/
theorem secureRedaction_C3 (sec : List String) (m : List (String × JVal)) :
    (∀ t ∈ sec,
      hasNodeEntries t "" (toJSONdoc sec m) = false ∧
      hasNodeEntries t "" (toJSONCompactDoc sec m) = false ∧
      hasNodeEntries t "" (marshalJSONdoc sec m) = false) ∧
    (∀ pre k, lowerStr (joinPre pre k) ∉ sec →
      alookup (delSecEntries sec pre m) k =
        (alookup m k).map (delSecVal sec (joinPre pre k))) ∧
    (∀ (r : ConfigReg) (sh : String) (dv : JVal) (d kn : String)
        (rest : List String) (sec0 : List String), ∃ r' sec',
      ConfigReg.Key r KeyType.secureString sh dv d (kn :: rest) sec0 = some (r', sec') ∧
      lowerStr kn ∈ sec') := by
  refine ⟨fun t ht => ?_, fun pre k hk => alookup_delSecEntries_kept sec pre k hk m, ?_⟩
  · have h := hasNodeEntries_delSecEntries sec t ht "" m
    exact ⟨h, h, h⟩
  · intro r sh dv d kn rest sec0
    refine ⟨_, _, rfl, ?_⟩
    simp only [ConfigReg.Key]
    by_cases hmem : lowerStr kn ∈ sec0 <;>
      simp [secureKeyInsert, hmem]

theorem secureRedaction_C3_witness :
    ("a.b" ∈ ["a.b"] ∧
      hasNodeEntries "a.b" ""
        (toJSONdoc ["a.b"]
          [("a", JVal.obj [("b", JVal.str "s3cr3t"), ("c", JVal.int 1)]),
           ("d", JVal.bool true)]) = false) ∧
    (lowerStr (joinPre "" "d") ∉ ["a.b"] ∧
      alookup (delSecEntries ["a.b"] ""
          [("a", JVal.obj [("b", JVal.str "s3cr3t"), ("c", JVal.int 1)]),
           ("d", JVal.bool true)]) "d" =
        (alookup [("a", JVal.obj [("b", JVal.str "s3cr3t"), ("c", JVal.int 1)]),
           ("d", JVal.bool true)] "d").map (delSecVal ["a.b"] (joinPre "" "d"))) :=
  ⟨⟨by decide,
    ((secureRedaction_C3 ["a.b"]
      [("a", JVal.obj [("b", JVal.str "s3cr3t"), ("c", JVal.int 1)]),
       ("d", JVal.bool true)]).1 "a.b" (by decide)).1⟩,
   ⟨by decide,
    (secureRedaction_C3 ["a.b"]
      [("a", JVal.obj [("b", JVal.str "s3cr3t"), ("c", JVal.int 1)]),
       ("d", JVal.bool true)]).2.1 "" "d" (by decide)⟩⟩

/-! ## JSON round trip (`gofig.go` lines 130-140 and 224-233) -/

/-- Dotted-key resolution of a path (list of segments) against a
nested document.  Modelled from the spec: this is the external viper
store's traversal of a dotted key over the map set by `FromJSON`. -/
def getPath : List (String × JVal) → List String → Option JVal
  | _, [] => none
  | m, s :: rest =>
    match alookup m s, rest with
    | some v, [] => some v
    | some (.obj m2), _ :: _ => getPath m2 rest
    | _, _ => none

/-- The full dotted path of a segment list under a starting path. -/
def pathJoin (pre : String) (segs : List String) : String :=
  segs.foldl joinPre pre

/-- Whether some ancestor-or-self node along the path has a
lower-cased dotted name in the secure key index. -/
def hasSecAncestor (sec : List String) (pre : String) : List String → Bool
  | [] => false
  | s :: rest =>
    decide (lowerStr (joinPre pre s) ∈ sec) || hasSecAncestor sec (joinPre pre s) rest

/-- `FromJSON` (`gofig.go` lines 130-140): the decoded top-level map
is written key-by-key into a fresh store by `Set` (map assignment).
JSON decoding of marshaller output always succeeds and is modelled as
the identity on the document. -/
def fromJSON (doc : List (String × JVal)) : List (String × JVal) :=
  doc.foldl (fun acc e => setEntry acc e.1 e.2) []

theorem alookup_eq_none_iff {α : Type} (l : List (String × α)) (k : String) :
    alookup l k = none ↔ k ∉ l.map Prod.fst := by
  induction l with
  | nil => simp [alookup]
  | cons e rest ih =>
    obtain ⟨k2, v⟩ := e
    by_cases h : k = k2 <;> simp [alookup, h, ih]

theorem setEntry_of_absent {α : Type} (l : List (String × α)) (k : String) (v : α)
    (h : alookup l k = none) : setEntry l k v = l ++ [(k, v)] := by
  induction l with
  | nil => simp [setEntry]
  | cons e rest ih =>
    obtain ⟨k2, v2⟩ := e
    by_cases hk : k = k2
    · simp [alookup, hk] at h
    · simp [alookup, hk] at h
      simp [setEntry, hk, ih h]

theorem alookup_append_of_none {α : Type} {a : List (String × α)} {k : String}
    (h : alookup a k = none) (b : List (String × α)) :
    alookup (a ++ b) k = alookup b k := by
  induction a with
  | nil => simp
  | cons e rest ih =>
    obtain ⟨k2, v⟩ := e
    by_cases hk : k = k2
    · simp [alookup, hk] at h
    · simp [alookup, hk] at h ⊢
      exact ih h

theorem foldl_setEntry_append {α : Type} (doc : List (String × α)) :
    ∀ acc : List (String × α), (∀ k ∈ doc.map Prod.fst, alookup acc k = none) →
      (doc.map Prod.fst).Nodup →
      doc.foldl (fun acc e => setEntry acc e.1 e.2) acc = acc ++ doc := by
  induction doc with
  | nil => intro acc _ _; simp
  | cons e rest ih =>
    intro acc habs hnd
    obtain ⟨k, v⟩ := e
    have hk : alookup acc k = none := habs k (by simp)
    have hset : setEntry acc k v = acc ++ [(k, v)] := setEntry_of_absent acc k v hk
    have hknotin : k ∉ rest.map Prod.fst := by
      simp only [List.map_cons] at hnd
      exact (List.nodup_cons.mp hnd).1
    have hrest : ∀ k2 ∈ rest.map Prod.fst, alookup (acc ++ [(k, v)]) k2 = none := by
      intro k2 hk2
      have hne : k2 ≠ k := fun h => hknotin (h ▸ hk2)
      have h2 : alookup acc k2 = none := habs k2 (by simp only [List.map_cons]; exact List.mem_cons_of_mem _ hk2)
      rw [alookup_append_of_none h2]
      simp [alookup, hne]
    have hnd2 : (rest.map Prod.fst).Nodup := by
      simp only [List.map_cons] at hnd
      exact (List.nodup_cons.mp hnd).2
    calc ((k, v) :: rest).foldl (fun acc e => setEntry acc e.1 e.2) acc
        = rest.foldl (fun acc e => setEntry acc e.1 e.2) (acc ++ [(k, v)]) := by
          simp [hset]
      _ = (acc ++ [(k, v)]) ++ rest := ih (acc ++ [(k, v)]) hrest hnd2
      _ = acc ++ ((k, v) :: rest) := by simp

theorem fromJSON_of_nodup (doc : List (String × JVal))
    (hnd : (doc.map Prod.fst).Nodup) : fromJSON doc = doc := by
  have h := foldl_setEntry_append doc [] (by intro k _; simp [alookup]) hnd
  simpa [fromJSON] using h

theorem delSecEntries_keys_sublist (sec : List String) (pre : String)
    (m : List (String × JVal)) :
    ((delSecEntries sec pre m).map Prod.fst).Sublist (m.map Prod.fst) := by
  induction m with
  | nil => simp [delSecEntries]
  | cons e rest ih =>
    obtain ⟨k, v⟩ := e
    by_cases hsec : lowerStr (joinPre pre k) ∈ sec
    · simp only [delSecEntries, hsec, if_pos, List.map_cons]
      exact ih.cons k
    · simp only [delSecEntries, hsec, if_neg, not_false_iff, List.map_cons]
      exact ih.cons₂ k

theorem getPath_delSecEntries (sec : List String) :
    ∀ (segs : List String) (pre : String) (m : List (String × JVal)),
      getPath (delSecEntries sec pre m) segs =
        if hasSecAncestor sec pre segs then none
        else (getPath m segs).map (delSecVal sec (pathJoin pre segs)) := by
  intro segs
  induction segs with
  | nil => intro pre m; simp [getPath, hasSecAncestor]
  | cons s rest ih =>
    intro pre m
    by_cases hsec : lowerStr (joinPre pre s) ∈ sec
    · have habs := alookup_delSecEntries_secure sec pre s hsec m
      simp [getPath, habs, hasSecAncestor, hsec]
    · have hkept := alookup_delSecEntries_kept sec pre s hsec m
      cases ha : alookup m s with
      | none =>
        rw [ha] at hkept
        simp only [Option.map_none'] at hkept
        simp [getPath, hkept, ha, hasSecAncestor, hsec]
      | some v =>
        rw [ha] at hkept
        simp only [Option.map_some'] at hkept
        cases rest with
        | nil =>
          simp [getPath, hkept, ha, hasSecAncestor, hsec, pathJoin]
        | cons r rs =>
          cases v with
          | obj m2 =>
            have hrec := ih (joinPre pre s) m2
            have hL : getPath (delSecEntries sec pre m) (s :: r :: rs) =
                getPath (delSecEntries sec (joinPre pre s) m2) (r :: rs) := by
              simp [getPath, hkept, delSecVal]
            have hR : getPath m (s :: r :: rs) = getPath m2 (r :: rs) := by
              simp [getPath, ha]
            rw [hL, hrec, hR]
            simp [hasSecAncestor, hsec, pathJoin]
          | null =>
            simp [getPath, hkept, ha, delSecVal, hasSecAncestor, hsec]
          | str s2 =>
            simp [getPath, hkept, ha, delSecVal, hasSecAncestor, hsec]
          | int n =>
            simp [getPath, hkept, ha, delSecVal, hasSecAncestor, hsec]
          | bool b =>
            simp [getPath, hkept, ha, delSecVal, hasSecAncestor, hsec]
          | double n =>
            simp [getPath, hkept, ha, delSecVal, hasSecAncestor, hsec]
          | arr xs =>
            simp [getPath, hkept, ha, delSecVal, hasSecAncestor, hsec]

/-- Claim C9: `FromJSON(c.ToJSONCompact())` succeeds (decoding of
marshaller output is total in the model) and reproduces exactly the
same non-secure key/value set as the original document: every leaf
path with no secure ancestor resolves to its original value, every
path at or under a secure key resolves to nothing (secure values lost
by design), and no leaf path resolves to anything that the original
did not hold. -/
theorem jsonRoundTrip_C9 (sec : List String) (m : List (String × JVal))
    (hnd : (m.map Prod.fst).Nodup) :
    (∀ segs v, hasSecAncestor sec "" segs = false → getPath m segs = some v →
      v.isObj = false → getPath (fromJSON (toJSONCompactDoc sec m)) segs = some v) ∧
    (∀ segs, hasSecAncestor sec "" segs = true →
      getPath (fromJSON (toJSONCompactDoc sec m)) segs = none) ∧
    (∀ segs v, getPath (fromJSON (toJSONCompactDoc sec m)) segs = some v →
      v.isObj = false → getPath m segs = some v) := by
  have hnd2 : ((delSecEntries sec "" m).map Prod.fst).Nodup :=
    hnd.sublist (delSecEntries_keys_sublist sec "" m)
  have hrt : fromJSON (toJSONCompactDoc sec m) = delSecEntries sec "" m := by
    show fromJSON (delSecEntries sec "" m) = delSecEntries sec "" m
    exact fromJSON_of_nodup _ hnd2
  rw [hrt]
  refine ⟨fun segs v hsec horig hobj => ?_, fun segs hsec => ?_, fun segs v hdel hobj => ?_⟩
  · rw [getPath_delSecEntries sec segs "" m, if_neg (by simp [hsec]), horig]
    simp [delSecVal_not_obj sec (pathJoin "" segs) hobj]
  · rw [getPath_delSecEntries sec segs "" m, if_pos (by simp [hsec])]
  · rw [getPath_delSecEntries sec segs "" m] at hdel
    by_cases hsec : hasSecAncestor sec "" segs
    · rw [if_pos hsec] at hdel; exact absurd hdel (by simp)
    · rw [if_neg hsec] at hdel
      cases horig : getPath m segs with
      | none => rw [horig] at hdel; exact absurd hdel (by simp)
      | some w =>
        rw [horig] at hdel
        simp only [Option.map_some', Option.some.injEq] at hdel
        cases w with
        | obj m2 =>
          rw [← hdel] at hobj
          simp [delSecVal, JVal.isObj] at hobj
        | null => rw [← hdel, delSecVal_not_obj sec _ (by simp [JVal.isObj])]
        | str s2 => rw [← hdel, delSecVal_not_obj sec _ (by simp [JVal.isObj])]
        | int n => rw [← hdel, delSecVal_not_obj sec _ (by simp [JVal.isObj])]
        | bool b => rw [← hdel, delSecVal_not_obj sec _ (by simp [JVal.isObj])]
        | double n => rw [← hdel, delSecVal_not_obj sec _ (by simp [JVal.isObj])]
        | arr xs => rw [← hdel, delSecVal_not_obj sec _ (by simp [JVal.isObj])]

theorem jsonRoundTrip_C9_witness :
    (([("a", JVal.obj [("b", JVal.str "s3cr3t"), ("c", JVal.int 7)])].map
        (Prod.fst (α := String) (β := JVal))).Nodup ∧
      getPath (fromJSON (toJSONCompactDoc ["a.b"]
        [("a", JVal.obj [("b", JVal.str "s3cr3t"), ("c", JVal.int 7)])]))
        ["a", "c"] = some (JVal.int 7)) ∧
    getPath (fromJSON (toJSONCompactDoc ["a.b"]
      [("a", JVal.obj [("b", JVal.str "s3cr3t"), ("c", JVal.int 7)])]))
      ["a", "b"] = none :=
  ⟨⟨by decide,
    (jsonRoundTrip_C9 ["a.b"]
      [("a", JVal.obj [("b", JVal.str "s3cr3t"), ("c", JVal.int 7)])]
      (by decide)).1 ["a", "c"] (JVal.int 7) (by decide) (by decide) (by decide)⟩,
   (jsonRoundTrip_C9 ["a.b"]
      [("a", JVal.obj [("b", JVal.str "s3cr3t"), ("c", JVal.int 7)])]
      (by decide)).2.1 ["a", "b"] (by decide)⟩

/-! ## The settings store (`viper`, an external collaborator) -/

/-- A pflag flag object: flag name, current value, whether the flag
was actually supplied on the command line (`Changed`), and the
declared default value. -/
structure PFlag where
  name : String
  value : JVal
  changed : Bool
  defValue : JVal
deriving DecidableEq

/-- Modelled from the spec: the external viper settings store wrapped
by `config` (`c.v`), holding the explicit `Set` override layer, the
`BindEnv` key-to-env-var bindings, the `BindPFlag` key-to-flag
bindings, and the merged document layer (config files layered over
registration defaults), all keyed by dotted key-name. -/
structure Viper where
  overrides : List (String × JVal)
  envBindings : List (String × String)
  flagBindings : List (String × PFlag)
  configData : List (String × JVal)
deriving DecidableEq

def Viper.empty : Viper := ⟨[], [], [], []⟩

/-- viper `Set` — the unconditional override layer (`gofig.go`
lines 388-390 delegate `config.Set` here). -/
def Viper.vset (c : Viper) (k : String) (v : JVal) : Viper :=
  { c with overrides := setEntry c.overrides k v }

/-- viper `BindEnv(keyName, envVarName)`. -/
def Viper.bindEnv (c : Viper) (k evn : String) : Viper :=
  { c with envBindings := setEntry c.envBindings k evn }

/-- viper `BindPFlag(keyName, flag)`. -/
def Viper.bindPFlag (c : Viper) (k : String) (f : PFlag) : Viper :=
  { c with flagBindings := setEntry c.flagBindings k f }

/-- viper `MergeConfig`: later document entries override earlier ones
for the same key, so config files layer over registration defaults
and later registrations over earlier ones. -/
def Viper.mergeConfig (c : Viper) (doc : List (String × JVal)) : Viper :=
  { c with configData := doc.foldl (fun d e => setEntry d e.1 e.2) c.configData }

/-- The environment-variable layer: a bound key resolves through the
process environment `penv` under its bound variable name. -/
def Viper.envVal (c : Viper) (penv : List (String × String)) (k : String) : Option JVal :=
  match alookup c.envBindings k with
  | some evn => (alookup penv evn).map JVal.str
  | none => none

/-- Modelled from the spec: store resolution precedence — explicit
`Set` override, else a supplied flag's parsed value, else a set
environment variable, else merged document content, else the bound
flag's declared default; otherwise absent. -/
def Viper.get (c : Viper) (penv : List (String × String)) (k : String) : Option JVal :=
  match alookup c.overrides k with
  | some v => some v
  | none =>
    match
      (match alookup c.flagBindings k with
       | some f => if f.changed then some f.value else none
       | none => none) with
    | some v => some v
    | none =>
      match Viper.envVal c penv k with
      | some v => some v
      | none =>
        match alookup c.configData k with
        | some v => some v
        | none =>
          match alookup c.flagBindings k with
          | some f => some f.defValue
          | none => none

/-- viper `IsSet`: the key resolves to something. -/
def Viper.isSet (c : Viper) (penv : List (String × String)) (k : String) : Bool :=
  (Viper.get c penv k).isSome

/-! ## View layer (`gofig.go` lines 175-393) -/

/-- A configuration view: either the root `config` (wrapping the
store) or a `scopedConfig` wrapping its backing parent view together
with a scope prefix. -/
inductive Cfg where
  | root (vc : Viper) : Cfg
  | scoped (parent : Cfg) (scope : String) : Cfg

/-- `Scope` (`gofig.go` lines 182-187): wraps the current view. -/
def Cfg.scope (c : Cfg) (s : String) : Cfg := .scoped c s

/-- `Parent` (`gofig.go` lines 175-180): `nil` for the root view. -/
def Cfg.parent : Cfg → Option Cfg
  | .root _ => none
  | .scoped p _ => some p

/-- `IsSet` (`gofig.go` lines 375-386): a scoped view first asks its
backing view for `scope.key` and falls back to the parent view with
the unscoped key; the root asks the store. -/
def Cfg.isSet (penv : List (String × String)) : Cfg → String → Bool
  | .root vc, k => Viper.isSet vc penv k
  | .scoped p s, k => Cfg.isSet penv p (s ++ "." ++ k) || Cfg.isSet penv p k

/-- `Get` (`gofig.go` lines 361-373): a scoped view first tries
`scope.key` against its backing view (via `IsSet`) and on absence
recurses to the parent view's `Get` with the unscoped key; the root
reads the store (`nil`, modelled `none`, when nothing resolves). -/
def Cfg.get (penv : List (String × String)) : Cfg → String → Option JVal
  | .root vc, k => Viper.get vc penv k
  | .scoped p s, k =>
    if Cfg.isSet penv p (s ++ "." ++ k) then Cfg.get penv p (s ++ "." ++ k)
    else Cfg.get penv p k

/-- `Set` (`gofig.go` lines 388-393): a scoped view prefixes its
scope and writes through its backing view, so the write lands in the
shared root store under the fully scoped key. -/
def Cfg.set : Cfg → String → JVal → Cfg
  | .root vc, k, v => .root (vc.vset k v)
  | .scoped p s, k, v => .scoped (Cfg.set p (s ++ "." ++ k) v) s

/-- Iterated `Scope` calls: `scopeChain c [a, b]` is
`c.Scope("a").Scope("b")`. -/
def scopeChain (c : Cfg) : List String → Cfg
  | [] => c
  | s :: rest => scopeChain (c.scope s) rest

theorem stringLengthAppend (a b : String) : (a ++ b).length = a.length + b.length := by
  rcases a with ⟨la⟩; rcases b with ⟨lb⟩
  show (String.mk (la ++ lb)).length = _
  simp [String.length]

theorem scopedKeyLength (s k : String) : (s ++ "." ++ k).length = s.length + 1 + k.length := by
  rw [stringLengthAppend, stringLengthAppend]
  rfl

theorem scopedKeyLongerThan (s k k2 : String) (h : k.length ≤ k2.length) :
    k.length < (s ++ "." ++ k2).length := by
  rw [scopedKeyLength]
  omega

theorem scopedKeyNe (s k : String) : s ++ "." ++ k ≠ k := by
  intro h
  have := congrArg String.length h
  rw [scopedKeyLength] at this
  omega

theorem appendRightInj (p : String) {a b : String} (h : p ++ a = p ++ b) : a = b := by
  have hd := congrArg String.data h
  rw [stringDataAppend, stringDataAppend] at hd
  rcases a with ⟨la⟩; rcases b with ⟨lb⟩
  have := List.append_cancel_left hd
  simpa using congrArg String.mk this

theorem viperGet_overridesOnly (ov : List (String × JVal))
    (penv : List (String × String)) (k : String) :
    Viper.get ⟨ov, [], [], []⟩ penv k = alookup ov k := by
  cases h : alookup ov k <;> simp [Viper.get, Viper.envVal, alookup, h]

theorem chainGet_of_unset (penv : List (String × String)) (k : String) (hv : Option JVal) :
    ∀ (scopes : List String) (c : Cfg), Cfg.get penv c k = hv →
      (∀ k2 : String, k.length < k2.length → Cfg.isSet penv c k2 = false) →
      Cfg.get penv (scopeChain c scopes) k = hv ∧
      (∀ k2 : String, k.length < k2.length →
        Cfg.isSet penv (scopeChain c scopes) k2 = false) := by
  intro scopes
  induction scopes with
  | nil => intro c hg hu; exact ⟨hg, hu⟩
  | cons s rest ih =>
    intro c hg hu
    simp only [scopeChain]
    apply ih
    · show Cfg.get penv (.scoped c s) k = hv
      have hlen : k.length < (s ++ "." ++ k).length := scopedKeyLongerThan s k k (le_refl _)
      simp [Cfg.get, hu _ hlen, hg]
    · intro k2 hk2
      show Cfg.isSet penv (.scoped c s) k2 = false
      have h1 : k.length < (s ++ "." ++ k2).length :=
        scopedKeyLongerThan s k k2 (le_of_lt hk2)
      simp [Cfg.isSet, hu _ h1, hu _ hk2]

theorem chainGet_of_shadow (penv : List (String × String)) (k : String) (v' : JVal) :
    ∀ (scopes : List String) (c : Cfg), Cfg.get penv c k = some v' →
      (∀ k2 : String, k.length < k2.length → Cfg.isSet penv c k2 = true →
        Cfg.get penv c k2 = some v') →
      Cfg.get penv (scopeChain c scopes) k = some v' := by
  intro scopes
  induction scopes with
  | nil => intro c hg _; exact hg
  | cons s rest ih =>
    intro c hg hinv
    simp only [scopeChain]
    apply ih
    · show Cfg.get penv (.scoped c s) k = some v'
      cases hs : Cfg.isSet penv c (s ++ "." ++ k) with
      | true =>
        have hlen : k.length < (s ++ "." ++ k).length :=
          scopedKeyLongerThan s k k (le_refl _)
        simp [Cfg.get, hs, hinv _ hlen hs]
      | false => simp [Cfg.get, hs, hg]
    · intro k2 hk2 hset
      show Cfg.get penv (.scoped c s) k2 = some v'
      cases h2 : Cfg.isSet penv c (s ++ "." ++ k2) with
      | true =>
        have hlen : k.length < (s ++ "." ++ k2).length :=
          scopedKeyLongerThan s k k2 (le_of_lt hk2)
        simp [Cfg.get, h2, hinv _ hlen h2]
      | false =>
        have hck2 : Cfg.isSet penv c k2 = true := by
          have : Cfg.isSet penv (.scoped c s) k2 = true := hset
          simpa [Cfg.isSet, h2] using this
        simp [Cfg.get, h2, hinv _ hk2 hck2]

/-- Claim C2: a scoped view's `Get` first tries its own scoped name
`scope.k` against its backing parent view (via `IsSet`) and on
absence falls back to the parent view's `Get` with the unscoped key,
recursing down the parent chain to the root's direct lookup and
finally to nothing (`nil`).  Hence a value set only on the root is
visible from any depth of scoping; a value set on an intermediate
scope shadows the root for views scoped at or below that scope
(`scopes := []` is the scope itself) but not for the views above it. -/
theorem scopedFallback_C2 (penv : List (String × String)) (k a : String)
    (v v' : JVal) (scopes : List String) :
    (∀ (p : Cfg) (s : String),
      Cfg.get penv (p.scope s) k =
        if Cfg.isSet penv p (s ++ "." ++ k) then Cfg.get penv p (s ++ "." ++ k)
        else Cfg.get penv p k) ∧
    Cfg.get penv (scopeChain ((Cfg.root Viper.empty).set k v) scopes) k = some v ∧
    Cfg.get penv
      (scopeChain (Cfg.set (Cfg.scope ((Cfg.root Viper.empty).set k v) a) k v') scopes)
      k = some v' ∧
    (Cfg.parent (Cfg.set (Cfg.scope ((Cfg.root Viper.empty).set k v) a) k v')).map
      (fun p => Cfg.get penv p k) = some (some v) ∧
    Cfg.get penv (scopeChain (Cfg.root Viper.empty) scopes) k = none := by
  have hakk : (a ++ "." ++ k) ≠ k := scopedKeyNe a k
  have hS : Cfg.set (Cfg.scope ((Cfg.root Viper.empty).set k v) a) k v' =
      Cfg.scoped (Cfg.root ⟨[(k, v), (a ++ "." ++ k, v')], [], [], []⟩) a := by
    simp [Cfg.set, Cfg.scope, Viper.vset, Viper.empty, setEntry, hakk]
  refine ⟨fun p s => rfl, ?_, ?_, ?_, ?_⟩
  · apply (chainGet_of_unset penv k (some v) scopes ((Cfg.root Viper.empty).set k v) ?_ ?_).1
    · simp [Cfg.set, Viper.vset, Viper.empty, setEntry, Cfg.get, viperGet_overridesOnly,
        alookup]
    · intro k2 hk2
      have hne : k2 ≠ k := fun h => absurd (h ▸ hk2) (lt_irrefl _)
      simp [Cfg.set, Viper.vset, Viper.empty, setEntry, Cfg.isSet, Viper.isSet,
        viperGet_overridesOnly, alookup, hne]
  · rw [hS]
    apply chainGet_of_shadow penv k v' scopes
    · show Cfg.get penv (.scoped (.root _) a) k = some v'
      simp [Cfg.get, Cfg.isSet, Viper.isSet, viperGet_overridesOnly, alookup, hakk]
    · intro k2 hk2 hset
      have hne1 : (a ++ "." ++ k2) ≠ k := by
        intro h
        have := congrArg String.length h
        rw [scopedKeyLength] at this
        omega
      have hne2 : (a ++ "." ++ k2) ≠ (a ++ "." ++ k) := by
        intro h
        have hkk := appendRightInj (a ++ ".") h
        exact absurd (hkk ▸ hk2) (lt_irrefl _)
      have hne3 : k2 ≠ k := fun h => absurd (h ▸ hk2) (lt_irrefl _)
      by_cases hk2ak : k2 = a ++ "." ++ k
      · subst hk2ak
        simp [Cfg.get, Cfg.isSet, Viper.isSet, viperGet_overridesOnly, alookup, hne1,
          hne2, hne3]
      · have : Cfg.isSet penv (.scoped (.root ⟨[(k, v), (a ++ "." ++ k, v')], [], [], []⟩) a)
            k2 = false := by
          simp [Cfg.isSet, Viper.isSet, viperGet_overridesOnly, alookup, hne1, hne2,
            hne3, hk2ak]
        rw [hset] at this
        exact absurd this (by simp)
  · rw [hS]
    simp [Cfg.parent, Cfg.get, viperGet_overridesOnly, alookup]
  · apply (chainGet_of_unset penv k none scopes (Cfg.root Viper.empty) ?_ ?_).1
    · simp [Cfg.get, Viper.empty, viperGet_overridesOnly, alookup]
    · intro k2 _
      simp [Cfg.isSet, Viper.isSet, Viper.empty, viperGet_overridesOnly, alookup]

/-! ## Source binder (`gofig.go` lines 495-549) -/

/-- The typed flag default taken from the key: Go's type assertions
`k.defVal.(string)` / `.(int)` / `.(bool)` in the per-type switch; a
type/default mismatch panics (`none`). -/
def defaultFlagVal : KeyType → JVal → Option JVal
  | .string, .str s => some (.str s)
  | .secureString, .str s => some (.str s)
  | .int, .int n => some (.int n)
  | .bool, .bool b => some (.bool b)
  | _, _ => none

/-- `config` (`gofig.go` lines 117-121): the store plus the
per-registration flag sets. -/
structure GoConfig where
  v : Viper
  flagSets : List (String × List (String × PFlag))
deriving DecidableEq

/-- The per-key loop body of `processRegistrations` (lines 503-540):
bind the environment variable, declare the flag with the key's typed
default (the short-alias branch declares the same flag under both
forms; the alias itself is not modelled), and bind the key to the
flag object.  pflag panics when a flag name is re-declared within one
flag set (`none`). -/
def processRegKeysList (v : Viper) (fs : List (String × PFlag)) :
    List ConfigRegKey → Option (Viper × List (String × PFlag))
  | [] => some (v, fs)
  | rk :: rest =>
    let v := v.bindEnv rk.keyName rk.envVarName
    match defaultFlagVal rk.keyType rk.defVal with
    | none => none
    | some d =>
      if (alookup fs rk.flagName).isSome then none
      else
        let fl : PFlag := { name := rk.flagName, value := d, changed := false, defValue := d }
        processRegKeysList (v.bindPFlag rk.keyName fl) (setEntry fs rk.flagName fl) rest

/-- One iteration of `processRegistrations` (lines 499-548): a fresh
flag set, every key bound, the flag set stored under
`"<name> Flags"`, then the registration's non-empty default document
merged into the store. -/
def processOneReg (c : GoConfig) (r : ConfigReg) : Option GoConfig :=
  match processRegKeysList c.v [] r.keys with
  | none => none
  | some (v2, fs) =>
    let c2 : GoConfig := ⟨v2, setEntry c.flagSets (r.name ++ " Flags") fs⟩
    if r.yamlDoc.isEmpty then some c2
    else some { c2 with v := c2.v.mergeConfig r.yamlDoc }

/-- `processRegistrations` (`gofig.go` lines 495-549): registrations
are applied in registration order. -/
def processRegistrations (c : GoConfig) : List ConfigReg → Option GoConfig
  | [] => some c
  | r :: rest =>
    match processOneReg c r with
    | none => none
    | some c2 => processRegistrations c2 rest

/-- Modelled from the spec: external pflag command-line parsing — a
flag listed in `supplied` receives its parsed value and its `Changed`
bit; the flag objects bound into the store are the ones updated. -/
def pflagParse (supplied : List (String × JVal)) (f : PFlag) : PFlag :=
  match alookup supplied f.name with
  | some v => { f with value := v, changed := true }
  | none => f

/-- Parsing updates every bound flag object (shared by pointer in Go
between the flag set and the store's flag bindings). -/
def parseFlags (c : GoConfig) (supplied : List (String × JVal)) : GoConfig :=
  ⟨{ c.v with flagBindings := c.v.flagBindings.map fun e => (e.1, pflagParse supplied e.2) },
   c.flagSets.map fun fse => (fse.1, fse.2.map fun e => (e.1, pflagParse supplied e.2))⟩

/-- `ReadConfig`/`MergeConfig` at the config level
(`gofig.go` lines 245-250; the document decoder is external). -/
def goMergeConfig (c : GoConfig) (doc : List (String × JVal)) : GoConfig :=
  { c with v := c.v.mergeConfig doc }

/-- Claim C1: resolution precedence for a declared key.  With static
default `D` (the typed flag default), document value `F`, environment
value `E` and explicit override `O` all present, `Get` yields `O`;
without `O` it yields the parsed flag value when the flag was
supplied, else `E`; without `E` and any flag it yields `F`; with
nothing else present it yields `D`.  Merged document content layers
config file over registration defaults, and registration defaults in
registration order. -/
theorem precedence_C1 (n n2 kn fn evn sh ds : String) (kt : KeyType) (dv d : JVal)
    (hd : defaultFlagVal kt dv = some d)
    (F F1 F2 O Vf : JVal) (E : String)
    (penvE : List (String × String)) (hE : alookup penvE evn = some E)
    (penv0 : List (String × String)) (h0 : alookup penv0 evn = none)
    (supplied : List (String × JVal)) (hV : alookup supplied fn = some Vf) :
    (∀ c1, processRegistrations ⟨Viper.empty, []⟩ [⟨n, [], [⟨kt, dv, sh, ds, kn, fn, evn⟩]⟩]
        = some c1 →
      Viper.get ((parseFlags (goMergeConfig c1 [(kn, F)]) supplied).v.vset kn O)
          penvE kn = some O ∧
      Viper.get (parseFlags (goMergeConfig c1 [(kn, F)]) supplied).v penvE kn = some Vf ∧
      Viper.get (goMergeConfig c1 [(kn, F)]).v penvE kn = some (JVal.str E) ∧
      Viper.get (goMergeConfig c1 [(kn, F)]).v penv0 kn = some F ∧
      Viper.get c1.v penv0 kn = some d) ∧
    (∀ c2, processRegistrations ⟨Viper.empty, []⟩
        [⟨n, [(kn, F1)], [⟨kt, dv, sh, ds, kn, fn, evn⟩]⟩, ⟨n2, [(kn, F2)], []⟩]
        = some c2 →
      Viper.get c2.v penv0 kn = some F2 ∧
      Viper.get (goMergeConfig c2 [(kn, F)]).v penv0 kn = some F) := by
  constructor
  · intro c1 h1
    simp [processRegistrations, processOneReg, processRegKeysList, hd, alookup,
      Viper.bindEnv, Viper.bindPFlag, Viper.empty, setEntry] at h1
    subst h1
    refine ⟨?_, ?_, ?_, ?_, ?_⟩
    · simp [Viper.get, Viper.vset, setEntry, alookup]
    · simp [parseFlags, goMergeConfig, Viper.mergeConfig, Viper.get, Viper.envVal,
        setEntry, alookup, pflagParse, hV]
    · simp [goMergeConfig, Viper.mergeConfig, Viper.get, Viper.envVal,
        setEntry, alookup, hE]
    · simp [goMergeConfig, Viper.mergeConfig, Viper.get, Viper.envVal,
        setEntry, alookup, h0]
    · simp [Viper.get, Viper.envVal, alookup, h0]
  · intro c2 h2
    simp [processRegistrations, processOneReg, processRegKeysList, hd, alookup,
      Viper.bindEnv, Viper.bindPFlag, Viper.mergeConfig, Viper.empty, setEntry] at h2
    subst h2
    constructor
    · simp [Viper.get, Viper.envVal, setEntry, alookup, h0]
    · simp [goMergeConfig, Viper.mergeConfig, Viper.get, Viper.envVal,
        setEntry, alookup, h0]

/-- Fixture: the bound flag of `mockProvider.docker.minVolSize`
(default 16), mirroring the `testReg3` test registration. -/
def mockFlag : PFlag :=
  ⟨"mockProviderDockerMinVolSize", JVal.int 16, false, JVal.int 16⟩

/-- Fixture: the config produced by registering only
`mockProvider.docker.minVolSize` with no default document. -/
def mockCfgA : GoConfig :=
  ⟨⟨[], [("mockProvider.docker.minVolSize", "MOCKPROVIDER_DOCKER_MINVOLSIZE")],
    [("mockProvider.docker.minVolSize", mockFlag)], []⟩,
   [("Mock Provider Flags", [("mockProviderDockerMinVolSize", mockFlag)])]⟩

/-- Fixture: the config after a second registration whose default
document overrides the first registration's default for the key. -/
def mockCfgB : GoConfig :=
  ⟨⟨[], [("mockProvider.docker.minVolSize", "MOCKPROVIDER_DOCKER_MINVOLSIZE")],
    [("mockProvider.docker.minVolSize", mockFlag)],
    [("mockProvider.docker.minVolSize", JVal.int 2)]⟩,
   [("Mock Provider Flags", [("mockProviderDockerMinVolSize", mockFlag)]),
    ("Mock Provider 2 Flags", [])]⟩

theorem precedence_C1_witness :
    Viper.get
      ((parseFlags (goMergeConfig mockCfgA
          [("mockProvider.docker.minVolSize", JVal.int 128)])
          [("mockProviderDockerMinVolSize", JVal.int 64)]).v.vset
        "mockProvider.docker.minVolSize" (JVal.int 256))
      [("MOCKPROVIDER_DOCKER_MINVOLSIZE", "32")] "mockProvider.docker.minVolSize"
      = some (JVal.int 256) ∧
    Viper.get mockCfgA.v [] "mockProvider.docker.minVolSize" = some (JVal.int 16) ∧
    Viper.get mockCfgB.v [] "mockProvider.docker.minVolSize" = some (JVal.int 2) := by
  have h := precedence_C1 "Mock Provider" "Mock Provider 2"
    "mockProvider.docker.minVolSize" "mockProviderDockerMinVolSize"
    "MOCKPROVIDER_DOCKER_MINVOLSIZE" "" "" KeyType.int (JVal.int 16) (JVal.int 16)
    (by decide) (JVal.int 128) (JVal.int 1) (JVal.int 2) (JVal.int 256) (JVal.int 64)
    "32" [("MOCKPROVIDER_DOCKER_MINVOLSIZE", "32")] (by decide) [] (by decide)
    [("mockProviderDockerMinVolSize", JVal.int 64)] (by decide)
  exact ⟨(h.1 mockCfgA (by decide)).1, (h.1 mockCfgA (by decide)).2.2.2.2,
    (h.2 mockCfgB (by decide)).1⟩

/-! ## The pflag build-variant binder (`processRegKeys`) -/

/-- The per-key loop of the build-variant binder `processRegKeys`
(lines 145-188 of the pflag variant): a key whose flag-name already
exists in the flag set is skipped entirely (`continue`) — including
its environment binding; otherwise the environment variable is
bound, the flag declared with the key's typed default, and the key
bound to the flag object. -/
def prkKeys (v : Viper) (fs : List (String × PFlag)) :
    List ConfigRegKey → Option (Viper × List (String × PFlag))
  | [] => some (v, fs)
  | rk :: rest =>
    if (alookup fs rk.flagName).isSome then prkKeys v fs rest
    else
      let v2 := v.bindEnv rk.keyName rk.envVarName
      match defaultFlagVal rk.keyType rk.defVal with
      | none => none
      | some d =>
        let fl : PFlag := ⟨rk.flagName, d, false, d⟩
        prkKeys (v2.bindPFlag rk.keyName fl) (setEntry fs rk.flagName fl) rest

/-- `processRegKeys` (pflag build variant, lines 137-188): fetch or
create the registration's flag set `"<name> Flags"`, bind the keys
under the skip policy, store the flag set back. -/
def processRegKeys (c : GoConfig) (r : ConfigReg) : Option GoConfig :=
  match prkKeys c.v ((alookup c.flagSets (r.name ++ " Flags")).getD []) r.keys with
  | none => none
  | some (v2, fs) => some ⟨v2, setEntry c.flagSets (r.name ++ " Flags") fs⟩

theorem setEntry_setEntry {α : Type} (l : List (String × α)) (k : String) (v v2 : α) :
    setEntry (setEntry l k v) k v2 = setEntry l k v2 := by
  induction l with
  | nil => simp [setEntry]
  | cons e rest ih =>
    obtain ⟨k3, v3⟩ := e
    by_cases h : k = k3 <;> simp [setEntry, h, ih]

theorem prkKeys_preserves (fname : String) :
    ∀ (ks : List ConfigRegKey) (v : Viper) (fs : List (String × PFlag)) (v2 fs2),
      prkKeys v fs ks = some (v2, fs2) → (alookup fs fname).isSome = true →
      (alookup fs2 fname).isSome = true := by
  intro ks
  induction ks with
  | nil => intro v fs v2 fs2 h hin; simp [prkKeys] at h; rw [← h.2]; exact hin
  | cons rk rest ih =>
    intro v fs v2 fs2 h hin
    by_cases hskip : (alookup fs rk.flagName).isSome = true
    · simp [prkKeys, hskip] at h
      exact ih _ _ _ _ h hin
    · cases hdm : defaultFlagVal rk.keyType rk.defVal with
      | none => simp [prkKeys, hskip, hdm] at h
      | some d =>
        simp [prkKeys, hskip, hdm] at h
        refine ih _ _ _ _ h ?_
        by_cases he : fname = rk.flagName
        · rw [he, alookup_setEntry_self]; rfl
        · rw [alookup_setEntry_ne _ _ he]; exact hin

theorem prkKeys_covers :
    ∀ (ks : List ConfigRegKey) (v : Viper) (fs : List (String × PFlag)) (v2 fs2),
      prkKeys v fs ks = some (v2, fs2) →
      ∀ rk ∈ ks, (alookup fs2 rk.flagName).isSome = true := by
  intro ks
  induction ks with
  | nil => intro v fs v2 fs2 _ rk hrk; simp at hrk
  | cons rk0 rest ih =>
    intro v fs v2 fs2 h rk hrk
    by_cases hskip : (alookup fs rk0.flagName).isSome = true
    · simp [prkKeys, hskip] at h
      rcases List.mem_cons.mp hrk with rfl | hmem
      · exact prkKeys_preserves rk.flagName rest _ _ _ _ h hskip
      · exact ih _ _ _ _ h rk hmem
    · cases hdm : defaultFlagVal rk0.keyType rk0.defVal with
      | none => simp [prkKeys, hskip, hdm] at h
      | some d =>
        simp [prkKeys, hskip, hdm] at h
        rcases List.mem_cons.mp hrk with rfl | hmem
        · refine prkKeys_preserves rk.flagName rest _ _ _ _ h ?_
          rw [alookup_setEntry_self]; rfl
        · exact ih _ _ _ _ h rk hmem

theorem prkKeys_noop :
    ∀ (ks : List ConfigRegKey) (v : Viper) (fs : List (String × PFlag)),
      (∀ rk ∈ ks, (alookup fs rk.flagName).isSome = true) →
      prkKeys v fs ks = some (v, fs) := by
  intro ks
  induction ks with
  | nil => intro v fs _; simp [prkKeys]
  | cons rk rest ih =>
    intro v fs hall
    have hskip : (alookup fs rk.flagName).isSome = true := hall rk (by simp)
    simp [prkKeys, hskip]
    exact ih v fs fun rk2 h2 => hall rk2 (by simp [h2])

/-- Claim C7 is false on the code in its environment-binding half:
when a key's flag-name already exists in the target flag-set, the
`continue` skips the *entire* key binding, `BindEnv` included.  Two
registrations sharing the flag set `"R Flags"`: the second declares
key `x.y` with explicit flag-name `aB`, which already exists, so the
store ends with no environment binding for `x.y` at all, while the
claim asserts the binding is (re-)applied regardless. -/
theorem bindingIdempotence_C7_cex :
    ((processRegKeys ⟨Viper.empty, []⟩
        ⟨"R", [], [⟨KeyType.string, JVal.str "", "", "", "a.b", "aB", "A_B"⟩]⟩).bind
      fun c => processRegKeys c
        ⟨"R", [], [⟨KeyType.string, JVal.str "", "", "", "x.y", "aB", "X_Y"⟩]⟩).map
      (fun c => alookup c.v.envBindings "x.y") = some none := by decide

/-- Claim C7 (amended): binding is idempotent per flag-name within a
single flag-set — a key whose flag-name already exists in the target
flag-set is skipped in its entirety, environment binding included
(not re-applied), and consequently binding the same registration
twice into one flag-set equals binding it once. -/
theorem bindingIdempotence_C7 :
    (∀ (v : Viper) (fs : List (String × PFlag)) (rk : ConfigRegKey)
        (rest : List ConfigRegKey),
      (alookup fs rk.flagName).isSome = true →
      prkKeys v fs (rk :: rest) = prkKeys v fs rest) ∧
    (∀ (c : GoConfig) (r : ConfigReg),
      (processRegKeys c r).bind (fun c2 => processRegKeys c2 r) = processRegKeys c r) := by
  constructor
  · intro v fs rk rest hskip
    simp [prkKeys, hskip]
  · intro c r
    cases h : processRegKeys c r with
    | none => rfl
    | some c2 =>
      show processRegKeys c2 r = some c2
      unfold processRegKeys at h
      cases hp : prkKeys c.v ((alookup c.flagSets (r.name ++ " Flags")).getD []) r.keys with
      | none => rw [hp] at h; exact absurd h (by simp)
      | some pair =>
        obtain ⟨v2, fs⟩ := pair
        rw [hp] at h
        simp only [Option.some.injEq] at h
        subst h
        have hcov := prkKeys_covers r.keys _ _ _ _ hp
        have hno := prkKeys_noop r.keys v2 fs hcov
        simp [processRegKeys, alookup_setEntry_self, hno, setEntry_setEntry]

theorem bindingIdempotence_C7_witness :
    ((alookup [("aB", PFlag.mk "aB" (JVal.str "") false (JVal.str ""))]
        "aB").isSome = true) ∧
    prkKeys Viper.empty [("aB", PFlag.mk "aB" (JVal.str "") false (JVal.str ""))]
        [⟨KeyType.string, JVal.str "", "", "", "x.y", "aB", "X_Y"⟩] =
      prkKeys Viper.empty [("aB", PFlag.mk "aB" (JVal.str "") false (JVal.str ""))] [] :=
  ⟨by decide,
   bindingIdempotence_C7.1 Viper.empty
     [("aB", PFlag.mk "aB" (JVal.str "") false (JVal.str ""))]
     ⟨KeyType.string, JVal.str "", "", "", "x.y", "aB", "X_Y"⟩ [] (by decide)⟩

/-! ## `allSettings` and `AllKeys` (`gofig.go` lines 280-296, 591-649) -/

mutual

/-- Per-entry behaviour of `flattenMapKeys` at full dotted path `kk`:
a nested mapping is walked recursively, a leaf is assigned into
`flat` under its lower-cased path. -/
def flattenMapVal : String → JVal → List (String × JVal) → List (String × JVal)
  | kk, .obj m2, flat => flattenMapKeys kk m2 flat
  | kk, v, flat => setEntry flat (lowerStr kk) v

/-- `flattenMapKeys` (`gofig.go` lines 638-649): record every leaf of
a nested mapping under its lower-cased full dotted path, by map
assignment into `flat`. -/
def flattenMapKeys : String → List (String × JVal) → List (String × JVal) →
    List (String × JVal)
  | _, [], flat => flat
  | pre, (k, v) :: rest, flat =>
    flattenMapKeys pre rest (flattenMapVal (pre ++ "." ++ k) v flat)

end

mutual

/-- Per-entry behaviour of `flattenArrayKeys` at full dotted path
`kk`: a nested mapping is walked recursively, a leaf's original-case
path is appended to `ak`. -/
def flattenArrVal : String → JVal → List String → List String
  | kk, .obj m2, ak => flattenArrayKeys kk m2 ak
  | kk, _, ak => ak ++ [kk]

/-- `flattenArrayKeys` (`gofig.go` lines 625-636): record every
leaf's original-case full dotted path (appending to `ak`). -/
def flattenArrayKeys : String → List (String × JVal) → List String → List String
  | _, [], ak => ak
  | pre, (k, v) :: rest, ak =>
    flattenArrayKeys pre rest (flattenArrVal (pre ++ "." ++ k) v ak)

end

/-- The per-nested-map body of `allSettings` (lines 606-620): flatten
the nested map, delete from `as` every flat entry whose key has an
equal (`reflect.DeepEqual`) value in the flattened form, then store
the nested map under its top-level key. -/
def asStep (as : List (String × JVal)) (e : String × JVal) : List (String × JVal) :=
  match e.2 with
  | .obj mv =>
    setEntry
      (as.filter fun kv => decide (alookup (flattenMapKeys e.1 mv []) kv.1 ≠ some kv.2))
      e.1 (.obj mv)
  | _ => as

/-- `allSettings` (`gofig.go` lines 591-623): split the store's
settings into flat non-map entries (`as`, skipping `nil`) and
top-level nested maps (`ms`), then fold the nested maps over the
duplicate-deletion step.  `vall` stands for the external
`viper.AllSettings()` map. -/
def allSettings (vall : List (String × JVal)) : List (String × JVal) :=
  (vall.filter fun kv => match kv.2 with | .obj _ => true | _ => false).foldl asStep
    (vall.filter fun kv => match kv.2 with | .null => false | .obj _ => false | _ => true)

/-- `AllKeys` (`gofig.go` lines 280-296): flat keys of `allSettings`
plus the original-case flattened keys of its nested maps. -/
def allKeys (vall : List (String × JVal)) : List String :=
  (allSettings vall).foldl
    (fun ak e =>
      match e.2 with
      | .null => ak
      | .obj mv => flattenArrayKeys e.1 mv ak
      | _ => ak ++ [e.1])
    []

theorem mem_setEntry {α : Type} {l : List (String × α)} {k : String} {v : α}
    {e : String × α} (h : e ∈ setEntry l k v) : e ∈ l ∨ e = (k, v) := by
  induction l with
  | nil => simp [setEntry] at h; exact Or.inr h
  | cons e2 rest ih =>
    by_cases hk : k = e2.1
    · rcases e2 with ⟨k2, v2⟩
      simp only at hk
      subst hk
      simp [setEntry] at h
      rcases h with h | h
      · exact Or.inr (by simp [h])
      · exact Or.inl (by simp [h])
    · rcases e2 with ⟨k2, v2⟩
      simp only at hk
      simp [setEntry, hk] at h
      rcases h with h | h
      · exact Or.inl (by simp [h])
      · rcases ih h with h2 | h2
        · exact Or.inl (by simp [h2])
        · exact Or.inr h2

theorem mem_setEntry_of_ne {α : Type} {l : List (String × α)} {e : String × α}
    (he : e ∈ l) (k : String) (v : α) (hne : e.1 ≠ k) : e ∈ setEntry l k v := by
  induction l with
  | nil => simp at he
  | cons e2 rest ih =>
    rcases e2 with ⟨k2, v2⟩
    by_cases hk : k = k2
    · subst hk
      simp [setEntry]
      rcases List.mem_cons.mp he with h | h
      · exact absurd (by rw [h]) hne
      · exact Or.inr h
    · simp [setEntry, hk]
      rcases List.mem_cons.mp he with h | h
      · exact Or.inl (by simp [h])
      · exact Or.inr (ih h)

theorem self_mem_setEntry {α : Type} (l : List (String × α)) (k : String) (v : α) :
    (k, v) ∈ setEntry l k v := by
  induction l with
  | nil => simp [setEntry]
  | cons e2 rest ih =>
    rcases e2 with ⟨k2, v2⟩
    by_cases hk : k = k2 <;> simp [setEntry, hk, ih]

theorem alookup_mem {α : Type} {l : List (String × α)} {k : String} {v : α}
    (h : alookup l k = some v) : (k, v) ∈ l := by
  induction l with
  | nil => simp [alookup] at h
  | cons e rest ih =>
    rcases e with ⟨k2, v2⟩
    by_cases hk : k = k2
    · subst hk
      simp [alookup] at h
      simp [h]
    · simp [alookup, hk] at h
      exact List.mem_cons_of_mem _ (ih h)

/-- All values of an association list are leaves (non-mappings). -/
def allLeaves (l : List (String × JVal)) : Bool :=
  l.all fun e => !(Prod.snd e).isObj

theorem allLeaves_iff (l : List (String × JVal)) :
    allLeaves l = true ↔ ∀ e ∈ l, (Prod.snd e).isObj = false := by
  simp [allLeaves]

theorem allLeaves_setEntry (l : List (String × JVal)) (k : String) (w : JVal)
    (h : allLeaves l = true) (hw : w.isObj = false) :
    allLeaves (setEntry l k w) = true := by
  rw [allLeaves_iff] at h ⊢
  intro e he
  rcases mem_setEntry he with h1 | h1
  · exact h e h1
  · rw [h1]; exact hw

mutual

theorem flattenMapVal_allLeaves :
    ∀ (kk : String) (v : JVal) (flat : List (String × JVal)),
      allLeaves flat = true → allLeaves (flattenMapVal kk v flat) = true
  | kk, .obj m2, flat => fun h => by
    have h2 := flattenMapKeys_allLeaves kk m2 flat h
    simpa [flattenMapVal] using h2
  | kk, .null, flat => fun h => by
    have h2 := allLeaves_setEntry flat (lowerStr kk) JVal.null h (by simp [JVal.isObj])
    simpa [flattenMapVal] using h2
  | kk, .str s, flat => fun h => by
    have h2 := allLeaves_setEntry flat (lowerStr kk) (JVal.str s) h (by simp [JVal.isObj])
    simpa [flattenMapVal] using h2
  | kk, .int n, flat => fun h => by
    have h2 := allLeaves_setEntry flat (lowerStr kk) (JVal.int n) h (by simp [JVal.isObj])
    simpa [flattenMapVal] using h2
  | kk, .bool b, flat => fun h => by
    have h2 := allLeaves_setEntry flat (lowerStr kk) (JVal.bool b) h (by simp [JVal.isObj])
    simpa [flattenMapVal] using h2
  | kk, .double n, flat => fun h => by
    have h2 := allLeaves_setEntry flat (lowerStr kk) (JVal.double n) h (by simp [JVal.isObj])
    simpa [flattenMapVal] using h2
  | kk, .arr xs, flat => fun h => by
    have h2 := allLeaves_setEntry flat (lowerStr kk) (JVal.arr xs) h (by simp [JVal.isObj])
    simpa [flattenMapVal] using h2

theorem flattenMapKeys_allLeaves :
    ∀ (pre : String) (m : List (String × JVal)) (flat : List (String × JVal)),
      allLeaves flat = true → allLeaves (flattenMapKeys pre m flat) = true
  | pre, [], flat => fun h => by simpa [flattenMapKeys] using h
  | pre, (k, v) :: rest, flat => fun h => by
    have h1 := flattenMapVal_allLeaves (pre ++ "." ++ k) v flat h
    have h2 := flattenMapKeys_allLeaves pre rest _ h1
    simpa [flattenMapKeys] using h2

end

theorem flattenMapKeys_not_obj (m : List (String × JVal)) (pre : String)
    (flat : List (String × JVal))
    (hflat : ∀ e ∈ flat, (Prod.snd e).isObj = false) :
    ∀ e ∈ flattenMapKeys pre m flat, (Prod.snd e).isObj = false :=
  (allLeaves_iff _).mp
    (flattenMapKeys_allLeaves pre m flat ((allLeaves_iff flat).mpr hflat))

theorem foldl_asStep_leaf :
    ∀ (ms as : List (String × JVal)) (e : String × JVal),
      e ∈ ms.foldl asStep as → (Prod.snd e).isObj = false →
      e ∈ as ∧ ∀ x ∈ ms, ∀ mv, Prod.snd x = JVal.obj mv →
        alookup (flattenMapKeys (Prod.fst x) mv []) e.1 ≠ some e.2 := by
  intro ms
  induction ms with
  | nil => intro as e he hobj; exact ⟨he, by simp⟩
  | cons x rest ih =>
    intro as e he hobj
    rw [List.foldl_cons] at he
    obtain ⟨h1, h2⟩ := ih (asStep as x) e he hobj
    cases hx2 : x.2 with
    | obj mv =>
      rw [show asStep as x =
          setEntry (as.filter fun kv =>
            decide (alookup (flattenMapKeys x.1 mv []) kv.1 ≠ some kv.2)) x.1
            (.obj mv) from by simp [asStep, hx2]] at h1
      rcases mem_setEntry h1 with h1 | h1
      · obtain ⟨heas, hpe⟩ := List.mem_filter.mp h1
        refine ⟨heas, ?_⟩
        intro y hy mv2 hy2
        rcases List.mem_cons.mp hy with rfl | hmem
        · have hmveq : JVal.obj mv = JVal.obj mv2 := hx2.symm.trans hy2
          injection hmveq with hmveq
          subst hmveq
          simpa using hpe
        · exact h2 y hmem mv2 hy2
      · rw [h1] at hobj
        simp [JVal.isObj] at hobj
    | null =>
      rw [show asStep as x = as from by simp [asStep, hx2]] at h1
      refine ⟨h1, ?_⟩
      intro y hy mv2 hy2
      rcases List.mem_cons.mp hy with rfl | hmem
      · rw [hx2] at hy2; exact absurd hy2 (by simp)
      · exact h2 y hmem mv2 hy2
    | str s =>
      rw [show asStep as x = as from by simp [asStep, hx2]] at h1
      refine ⟨h1, ?_⟩
      intro y hy mv2 hy2
      rcases List.mem_cons.mp hy with rfl | hmem
      · rw [hx2] at hy2; exact absurd hy2 (by simp)
      · exact h2 y hmem mv2 hy2
    | int n =>
      rw [show asStep as x = as from by simp [asStep, hx2]] at h1
      refine ⟨h1, ?_⟩
      intro y hy mv2 hy2
      rcases List.mem_cons.mp hy with rfl | hmem
      · rw [hx2] at hy2; exact absurd hy2 (by simp)
      · exact h2 y hmem mv2 hy2
    | bool b =>
      rw [show asStep as x = as from by simp [asStep, hx2]] at h1
      refine ⟨h1, ?_⟩
      intro y hy mv2 hy2
      rcases List.mem_cons.mp hy with rfl | hmem
      · rw [hx2] at hy2; exact absurd hy2 (by simp)
      · exact h2 y hmem mv2 hy2
    | double n =>
      rw [show asStep as x = as from by simp [asStep, hx2]] at h1
      refine ⟨h1, ?_⟩
      intro y hy mv2 hy2
      rcases List.mem_cons.mp hy with rfl | hmem
      · rw [hx2] at hy2; exact absurd hy2 (by simp)
      · exact h2 y hmem mv2 hy2
    | arr xs =>
      rw [show asStep as x = as from by simp [asStep, hx2]] at h1
      refine ⟨h1, ?_⟩
      intro y hy mv2 hy2
      rcases List.mem_cons.mp hy with rfl | hmem
      · rw [hx2] at hy2; exact absurd hy2 (by simp)
      · exact h2 y hmem mv2 hy2

theorem asStep_not_obj {x : String × JVal} (h : (Prod.snd x).isObj = false)
    (as : List (String × JVal)) : asStep as x = as := by
  rcases x with ⟨k, v⟩
  cases v
  case obj m => simp [JVal.isObj] at h
  all_goals simp [asStep]

theorem foldl_asStep_obj :
    ∀ (ms as : List (String × JVal)) (e : String × JVal),
      e ∈ ms.foldl asStep as → (Prod.snd e).isObj = true → e ∈ as ∨ e ∈ ms := by
  intro ms
  induction ms with
  | nil => intro as e he _; exact Or.inl he
  | cons x rest ih =>
    intro as e he hobj
    rw [List.foldl_cons] at he
    rcases ih (asStep as x) e he hobj with h1 | h1
    · cases hx2 : x.2 with
      | obj mv =>
        rw [show asStep as x =
            setEntry (as.filter fun kv =>
              decide (alookup (flattenMapKeys x.1 mv []) kv.1 ≠ some kv.2)) x.1
              (.obj mv) from by simp [asStep, hx2]] at h1
        rcases mem_setEntry h1 with h1 | h1
        · exact Or.inl (List.mem_filter.mp h1).1
        · refine Or.inr (List.mem_cons.mpr (Or.inl ?_))
          rcases e with ⟨ek, ev⟩
          rcases x with ⟨xk, xv⟩
          simp only at hx2 h1
          simp only [Prod.mk.injEq] at h1
          simp [h1.1, h1.2, hx2]
      | null => rw [asStep_not_obj (by simp [hx2, JVal.isObj]) as] at h1; exact Or.inl h1
      | str s => rw [asStep_not_obj (by simp [hx2, JVal.isObj]) as] at h1; exact Or.inl h1
      | int n => rw [asStep_not_obj (by simp [hx2, JVal.isObj]) as] at h1; exact Or.inl h1
      | bool b => rw [asStep_not_obj (by simp [hx2, JVal.isObj]) as] at h1; exact Or.inl h1
      | double n =>
        rw [asStep_not_obj (by simp [hx2, JVal.isObj]) as] at h1; exact Or.inl h1
      | arr xs => rw [asStep_not_obj (by simp [hx2, JVal.isObj]) as] at h1; exact Or.inl h1
    · exact Or.inr (List.mem_cons_of_mem _ h1)

theorem foldl_asStep_preserve :
    ∀ (ms as : List (String × JVal)) (x : String × JVal) (mv : List (String × JVal)),
      Prod.snd x = JVal.obj mv → x ∈ as → (∀ y ∈ ms, x.1 ≠ y.1) →
      x ∈ ms.foldl asStep as := by
  intro ms
  induction ms with
  | nil => intro as x mv _ hx _; exact hx
  | cons y rest ih =>
    intro as x mv hxo hx hne
    rw [List.foldl_cons]
    refine ih (asStep as y) x mv hxo ?_ fun y2 h2 => hne y2 (List.mem_cons_of_mem _ h2)
    cases hy2 : y.2 with
    | obj mvy =>
      rw [show asStep as y =
          setEntry (as.filter fun kv =>
            decide (alookup (flattenMapKeys y.1 mvy []) kv.1 ≠ some kv.2)) y.1
            (.obj mvy) from by simp [asStep, hy2]]
      refine mem_setEntry_of_ne ?_ y.1 _ (hne y (by simp))
      refine List.mem_filter.mpr ⟨hx, ?_⟩
      simp only [decide_eq_true_eq]
      intro hlook
      have hmem := alookup_mem hlook
      have hno := flattenMapKeys_not_obj mvy y.1 [] (by simp) (x.1, x.2) hmem
      simp only at hno
      rw [hxo] at hno
      simp [JVal.isObj] at hno
    | null => rw [asStep_not_obj (by simp [hy2, JVal.isObj]) as]; exact hx
    | str s => rw [asStep_not_obj (by simp [hy2, JVal.isObj]) as]; exact hx
    | int n => rw [asStep_not_obj (by simp [hy2, JVal.isObj]) as]; exact hx
    | bool b => rw [asStep_not_obj (by simp [hy2, JVal.isObj]) as]; exact hx
    | double n => rw [asStep_not_obj (by simp [hy2, JVal.isObj]) as]; exact hx
    | arr xs => rw [asStep_not_obj (by simp [hy2, JVal.isObj]) as]; exact hx

theorem foldl_asStep_adds :
    ∀ (ms as : List (String × JVal)) (x : String × JVal) (mv : List (String × JVal)),
      Prod.snd x = JVal.obj mv → x ∈ ms → (ms.map Prod.fst).Nodup →
      x ∈ ms.foldl asStep as := by
  intro ms
  induction ms with
  | nil => intro as x mv _ hx _; simp at hx
  | cons y rest ih =>
    intro as x mv hxo hx hnd
    simp only [List.map_cons, List.nodup_cons] at hnd
    rw [List.foldl_cons]
    rcases List.mem_cons.mp hx with rfl | hmem
    · refine foldl_asStep_preserve rest (asStep as x) x mv hxo ?_ ?_
      · rw [show asStep as x =
            setEntry (as.filter fun kv =>
              decide (alookup (flattenMapKeys x.1 mv []) kv.1 ≠ some kv.2)) x.1
              (.obj mv) from by simp [asStep, hxo]]
        have hself := self_mem_setEntry
          (as.filter fun kv =>
            decide (alookup (flattenMapKeys x.1 mv []) kv.1 ≠ some kv.2)) x.1
          (JVal.obj mv)
        have hx2 : x = (x.1, JVal.obj mv) := by
          rcases x with ⟨xk, xv⟩
          simp only at hxo
          simp [hxo]
        rw [hx2]
        exact hself
      · intro y2 hy2 heq
        exact hnd.1 (heq ▸ (List.mem_map.mpr ⟨y2, hy2, rfl⟩))
    · exact ih (asStep as y) x mv hxo hmem hnd.2

/-- Claim C6: `AllSettings` (and hence `AllKeys`) never reports the
same logical setting twice under its flat dotted form and its nested
form.  For every flat (non-map) entry of the result and every nested
map of the result, the nested map's lower-cased flattening does not
hold the flat entry's key with an equal value — such duplicates were
suppressed in favour of the nested form — and the nested form itself
is reported.  `vall` is the store's settings map (viper keeps keys
lower-cased, the first hypothesis; a Go map's keys are unique, the
second). -/
theorem allSettingsDedup_C6 (vall : List (String × JVal))
    (hlc : ∀ e ∈ vall, lowerStr (Prod.fst e) = Prod.fst e)
    (hnd : (vall.map Prod.fst).Nodup) :
    (∀ e ∈ allSettings vall, (Prod.snd e).isObj = false →
      ∀ o ∈ allSettings vall, ∀ mv, Prod.snd o = JVal.obj mv →
        alookup (flattenMapKeys (Prod.fst o) mv []) (lowerStr (Prod.fst e)) ≠
          some (Prod.snd e)) ∧
    (∀ e ∈ allSettings vall, (Prod.snd e).isObj = false →
      ∀ o ∈ allSettings vall, ∀ mv, Prod.snd o = JVal.obj mv →
        ¬(Prod.fst e ∈ flattenArrayKeys (Prod.fst o) mv [] ∧
          alookup (flattenMapKeys (Prod.fst o) mv []) (lowerStr (Prod.fst e)) =
            some (Prod.snd e))) ∧
    (∀ x ∈ vall, ∀ mv, Prod.snd x = JVal.obj mv → x ∈ allSettings vall) := by
  have hmain : ∀ e ∈ allSettings vall, (Prod.snd e).isObj = false →
      ∀ o ∈ allSettings vall, ∀ mv, Prod.snd o = JVal.obj mv →
        alookup (flattenMapKeys (Prod.fst o) mv []) (lowerStr (Prod.fst e)) ≠
          some (Prod.snd e) := by
    intro e he hobj o ho mv homv
    obtain ⟨heas0, hstep⟩ := foldl_asStep_leaf
      (vall.filter fun kv => match kv.2 with | .obj _ => true | _ => false)
      (vall.filter fun kv => match kv.2 with | .null => false | .obj _ => false | _ => true)
      e he hobj
    have hevall : e ∈ vall := (List.mem_filter.mp heas0).1
    rw [hlc e hevall]
    have hoobj : (Prod.snd o).isObj = true := by simp [homv, JVal.isObj]
    rcases foldl_asStep_obj _ _ o ho hoobj with hoas0 | homs
    · have hpred := (List.mem_filter.mp hoas0).2
      rw [homv] at hpred
      simp at hpred
    · exact hstep o homs mv homv
  refine ⟨hmain, ?_, ?_⟩
  · intro e he hobj o ho mv homv hand
    exact hmain e he hobj o ho mv homv hand.2
  · intro x hx mv hxo
    have hxm : x ∈ vall.filter fun kv => match kv.2 with | .obj _ => true | _ => false :=
      List.mem_filter.mpr ⟨hx, by rw [hxo]⟩
    have hndms : ((vall.filter fun kv =>
        match kv.2 with | .obj _ => true | _ => false).map Prod.fst).Nodup :=
      hnd.sublist ((vall.filter_sublist).map Prod.fst)
    exact foldl_asStep_adds _ _ x mv hxo hxm hndms

theorem allSettingsDedup_C6_witness :
    ((∀ e ∈ [("a.b", JVal.int 1),
        ("a", JVal.obj [("b", JVal.int 1), ("c", JVal.int 2)]), ("d", JVal.str "x")],
      lowerStr (Prod.fst e) = Prod.fst e) ∧
     alookup (flattenMapKeys "a" [("b", JVal.int 1), ("c", JVal.int 2)] [])
       (lowerStr "d") ≠ some (JVal.str "x")) ∧
    ("a", JVal.obj [("b", JVal.int 1), ("c", JVal.int 2)]) ∈
      allSettings [("a.b", JVal.int 1),
        ("a", JVal.obj [("b", JVal.int 1), ("c", JVal.int 2)]), ("d", JVal.str "x")] :=
  ⟨⟨by decide,
    (allSettingsDedup_C6
      [("a.b", JVal.int 1), ("a", JVal.obj [("b", JVal.int 1), ("c", JVal.int 2)]),
       ("d", JVal.str "x")] (by decide) (by decide)).1
      ("d", JVal.str "x") (by decide) (by decide)
      ("a", JVal.obj [("b", JVal.int 1), ("c", JVal.int 2)]) (by decide)
      [("b", JVal.int 1), ("c", JVal.int 2)] rfl⟩,
   (allSettingsDedup_C6
      [("a.b", JVal.int 1), ("a", JVal.obj [("b", JVal.int 1), ("c", JVal.int 2)]),
       ("d", JVal.str "x")] (by decide) (by decide)).2.2
      ("a", JVal.obj [("b", JVal.int 1), ("c", JVal.int 2)]) (by decide)
      [("b", JVal.int 1), ("c", JVal.int 2)] rfl⟩

/-! ## `EnvVars` (`gofig.go` lines 263-275 and 553-589) -/

/-- The `iv.(string)` assertions over a Go `[]interface{}`: all
elements must be strings; `none` models the panic on the first
non-string element. -/
def allStrings : List JVal → Option (List String)
  | [] => some []
  | .str s :: rest => (allStrings rest).map (s :: ·)
  | _ :: _ => none

mutual

/-- Per-entry behaviour of `flattenEnvVars` for the value at full
dotted path `kk` (the `switch vt := v.(type)` at lines 571-586):
strings, bools and ints are formatted under the upper-cased
`_`-joined key; a list is joined with single spaces after asserting
every element is a string (`none` models that panic); a nested map
recurses; any other value (`nil`, float64) matches no case and is
silently skipped. -/
def flattenEnvVal : String → JVal → List (String × String) →
    Option (List (String × String))
  | kk, .str s, envVars => some (setEntry envVars (upperStr (dotToUnderscore kk)) s)
  | kk, .arr xs, envVars =>
    match allStrings xs with
    | some strs =>
      some (setEntry envVars (upperStr (dotToUnderscore kk)) (joinWith " " strs))
    | none => none
  | kk, .obj m2, envVars => flattenEnvVars kk m2 envVars
  | kk, .bool b, envVars =>
    some (setEntry envVars (upperStr (dotToUnderscore kk)) (if b then "true" else "false"))
  | kk, .int n, envVars =>
    some (setEntry envVars (upperStr (dotToUnderscore kk)) (toString n))
  | _, .null, envVars => some envVars
  | _, .double _, envVars => some envVars

/-- `flattenEnvVars` (`gofig.go` lines 553-589). -/
def flattenEnvVars : String → List (String × JVal) → List (String × String) →
    Option (List (String × String))
  | _, [], envVars => some envVars
  | pre, (k, v) :: rest, envVars =>
    match flattenEnvVal (joinPre pre k) v envVars with
    | some envVars2 => flattenEnvVars pre rest envVars2
    | none => none

end

/-- `EnvVars` (`gofig.go` lines 266-275): flatten the settings map
and format every binding as `KEY=value`. -/
def envVarsOf (asMap : List (String × JVal)) : Option (List String) :=
  (flattenEnvVars "" asMap []).map fun evs => evs.map fun e => e.1 ++ "=" ++ e.2

mutual

/-- Every list value reachable through nested mappings holds only
string elements. -/
def listsAllStringsVal : JVal → Bool
  | .arr xs => (allStrings xs).isSome
  | .obj m => listsAllStringsEntries m
  | _ => true

/-- `listsAllStringsVal` over a mapping's entries. -/
def listsAllStringsEntries : List (String × JVal) → Bool
  | [] => true
  | (_, v) :: rest => listsAllStringsVal v && listsAllStringsEntries rest

end

mutual

theorem flattenEnvVal_total :
    ∀ (kk : String) (v : JVal) (acc : List (String × String)),
      listsAllStringsVal v = true → (flattenEnvVal kk v acc).isSome = true
  | kk, .obj m2, acc => fun h => by
    have h2 := flattenEnvVars_total kk m2 acc (by simpa [listsAllStringsVal] using h)
    simpa [flattenEnvVal] using h2
  | kk, .arr xs, acc => fun h => by
    simp only [listsAllStringsVal] at h
    cases hs : allStrings xs with
    | none => rw [hs] at h; simp at h
    | some strs => simp [flattenEnvVal, hs]
  | kk, .str s, acc => fun _ => by simp [flattenEnvVal]
  | kk, .bool b, acc => fun _ => by simp [flattenEnvVal]
  | kk, .int n, acc => fun _ => by simp [flattenEnvVal]
  | kk, .null, acc => fun _ => by simp [flattenEnvVal]
  | kk, .double n, acc => fun _ => by simp [flattenEnvVal]

theorem flattenEnvVars_total :
    ∀ (pre : String) (m : List (String × JVal)) (acc : List (String × String)),
      listsAllStringsEntries m = true → (flattenEnvVars pre m acc).isSome = true
  | pre, [], acc => fun _ => by simp [flattenEnvVars]
  | pre, (k, v) :: rest, acc => fun h => by
    simp only [listsAllStringsEntries, Bool.and_eq_true] at h
    have h1 := flattenEnvVal_total (joinPre pre k) v acc h.1
    cases he : flattenEnvVal (joinPre pre k) v acc with
    | none => rw [he] at h1; simp at h1
    | some acc2 =>
      have h2 := flattenEnvVars_total pre rest acc2 h.2
      simpa [flattenEnvVars, he] using h2

end

theorem allStrings_map_str (strs : List String) :
    allStrings (strs.map JVal.str) = some strs := by
  induction strs with
  | nil => simp [allStrings]
  | cons s rest ih => simp [allStrings, ih]

/-- Claim C10: `EnvVars` flattening is total exactly on stores whose
list values hold only strings — such lists are formatted joined by
single spaces — while a list with a non-string element hits the
`iv.(string)` type-assertion panic (the `none` branch); leaf values
that are not strings, lists, nested mappings, booleans or integers
(`nil`, float64) are silently omitted from the `EnvVars` output. -/
theorem envVarsTotality_C10 :
    (∀ (pre : String) (m : List (String × JVal)) (acc : List (String × String)),
      listsAllStringsEntries m = true → (flattenEnvVars pre m acc).isSome = true) ∧
    flattenEnvVars "" [("a", JVal.arr [JVal.int 1])] [] = none ∧
    (∀ (k : String) (strs : List String),
      flattenEnvVars "" [(k, JVal.arr (strs.map JVal.str))] [] =
        some [(upperStr (dotToUnderscore k), joinWith " " strs)]) ∧
    (∀ (k : String) (n : Int),
      flattenEnvVars "" [(k, JVal.double n)] [] = some [] ∧
      flattenEnvVars "" [(k, JVal.null)] [] = some []) ∧
    envVarsOf [("a", JVal.double 1), ("b", JVal.str "x")] = some ["B=x"] := by
  refine ⟨flattenEnvVars_total, by decide, ?_, ?_, by decide⟩
  · intro k strs
    simp [flattenEnvVars, flattenEnvVal, joinPre, allStrings_map_str, setEntry]
  · intro k n
    exact ⟨by simp [flattenEnvVars, flattenEnvVal], by simp [flattenEnvVars, flattenEnvVal]⟩

theorem envVarsTotality_C10_witness :
    listsAllStringsEntries
      [("a", JVal.obj [("b", JVal.arr [JVal.str "x", JVal.str "y"])])] = true ∧
    (flattenEnvVars "" [("a", JVal.obj [("b", JVal.arr [JVal.str "x", JVal.str "y"])])]
      []).isSome = true :=
  ⟨by decide,
   envVarsTotality_C10.1 ""
     [("a", JVal.obj [("b", JVal.arr [JVal.str "x", JVal.str "y"])])] [] (by decide)⟩
